import Mathlib

/-!
Verification of the Moon-Gazing-Tower streaming scan pipeline.

Go strings are modelled as lists of characters (`Str`), Go slices as
Lean lists, Go maps used as sets as association lists, and machine
integers as `Nat`/`Int` with explicit `% 2 ^ w` where overflow matters.
Each definition is a shallow embedding of the correspondingly named Go
function; the file cites the source file next to each definition.
-/

namespace MoonGazing

/-- Go strings, modelled as lists of characters. -/
abbrev Str := List Char

/-- Shorthand for turning a Lean string literal into a `Str`. -/
def strMk (s : String) : Str := s.toList

/-- Model of Go `strings.HasPrefix(s, pat)`. -/
def goStartsWith : Str → Str → Bool
  | _, [] => true
  | [], _ :: _ => false
  | c :: s, p :: ps => c == p && goStartsWith s ps

/-- Model of Go `strings.HasSuffix(s, pat)`. -/
def goHasSuffix (s pat : Str) : Bool :=
  goStartsWith s.reverse pat.reverse

/-- Model of Go `strings.Contains(s, pat)`. -/
def containsSub : Str → Str → Bool
  | [], pat => pat.isEmpty
  | c :: s, pat => goStartsWith (c :: s) pat || containsSub s pat

/-- Model of Go `strings.Replace(s, old, new, 1)` for a non-empty
pattern `old`: the leftmost occurrence of `old` is replaced by `repl`.
(The Go behaviour for an empty pattern, insertion, is never used by the
code under verification.) -/
def replaceFirst : Str → Str → Str → Str
  | [], _, _ => []
  | c :: s, pat, repl =>
    if goStartsWith (c :: s) pat then repl ++ (c :: s).drop pat.length
    else c :: replaceFirst s pat repl

/-- `normalizeURL` from the task executor (src/unnamed/part_007):
removes the default port `:443` (first `":443/"` segment, or a trailing
`":443"`) and then the default port `:80` (first `":80/"` segment, or a
trailing `":80"`), with the original length guards. -/
def normalizeURL (rawURL : Str) : Str :=
  if rawURL = [] then rawURL
  else
    let s1 :=
      if 4 < rawURL.length then
        let t := replaceFirst rawURL (strMk ":443/") (strMk "/")
        if goHasSuffix t (strMk ":443") then t.take (t.length - 4) else t
      else rawURL
    if 3 < s1.length then
      let t := replaceFirst s1 (strMk ":80/") (strMk "/")
      if goHasSuffix t (strMk ":80") then t.take (t.length - 3) else t
    else s1

/-- `normalizeServiceURL` from the result service (src/unnamed/part_008):
textually the same normalization used before persisting/deduplicating
service URLs. -/
def normalizeServiceURL (rawURL : Str) : Str :=
  if rawURL = [] then rawURL
  else
    let s1 :=
      if 4 < rawURL.length then
        let t := replaceFirst rawURL (strMk ":443/") (strMk "/")
        if goHasSuffix t (strMk ":443") then t.take (t.length - 4) else t
      else rawURL
    if 3 < s1.length then
      let t := replaceFirst s1 (strMk ":80/") (strMk "/")
      if goHasSuffix t (strMk ":80") then t.take (t.length - 3) else t
    else s1

/-- A URL has no residual default-port fragment: no `":443/"` or
`":80/"` substring and no `":443"` or `":80"` suffix. On such strings
the normalization acts as the identity. -/
def noDefaultPortFragment (s : Str) : Bool :=
  !containsSub s (strMk ":443/") && !goHasSuffix s (strMk ":443") &&
    !containsSub s (strMk ":80/") && !goHasSuffix s (strMk ":80")

theorem goStartsWith_false_of_not_contains {s pat : Str}
    (h : containsSub s pat = false) : goStartsWith s pat = false := by
  cases s with
  | nil =>
    cases pat with
    | nil => simp [containsSub, List.isEmpty] at h
    | cons p ps => simp [goStartsWith]
  | cons c s =>
    simp only [containsSub, Bool.or_eq_false_iff] at h
    exact h.1

theorem replaceFirst_eq_self {s pat : Str} (repl : Str)
    (h : containsSub s pat = false) : replaceFirst s pat repl = s := by
  induction s with
  | nil => simp [replaceFirst]
  | cons c s ih =>
    simp only [containsSub, Bool.or_eq_false_iff] at h
    simp [replaceFirst, h.1, ih h.2]

theorem normalizeURL_eq_self {s : Str} (h : noDefaultPortFragment s = true) :
    normalizeURL s = s := by
  simp only [noDefaultPortFragment, Bool.and_eq_true, Bool.not_eq_true'] at h
  obtain ⟨⟨⟨h1, h2⟩, h3⟩, h4⟩ := h
  unfold normalizeURL
  by_cases hnil : s = []
  · simp [hnil]
  · simp only [if_neg hnil]
    by_cases hl4 : 4 < s.length
    · simp only [if_pos hl4, replaceFirst_eq_self _ h1, h2]
      by_cases hl3 : 3 < s.length
      · simp [if_pos hl3, replaceFirst_eq_self _ h3, h4]
      · simp [if_neg hl3]
    · simp only [if_neg hl4]
      by_cases hl3 : 3 < s.length
      · simp [if_pos hl3, replaceFirst_eq_self _ h3, h4]
      · simp [if_neg hl3]

theorem normalizeServiceURL_eq_normalizeURL (s : Str) :
    normalizeServiceURL s = normalizeURL s := rfl

/-- C1 counterexample: URL normalization is not idempotent. On
`"https://x:443:443/p"` the first pass removes only the rightmost
`":443/"` segment, leaving `"https://x:443/p"`, which a second pass
still rewrites to `"https://x/p"`. -/
theorem c1_normalize_counterexample :
    normalizeURL (normalizeURL (strMk "https://x:443:443/p")) ≠
      normalizeURL (strMk "https://x:443:443/p") := by decide

/-- C1 (amended): URL normalization removes the first `":443/"` segment
or a trailing `":443"`, then the first `":80/"` segment or a trailing
`":80"`, irrespective of the URL scheme (so `:443` is removed from http
URLs as well); it is idempotent at every string whose normalization has
no residual default-port fragment (but not at every string); the
specific example `normalize("https://x:443/p") = normalize("https://x/p")`
holds; and `normalizeServiceURL`, the copy used before persisting,
agrees with `normalizeURL` everywhere. -/
theorem c1_normalize_amended :
    (∀ u : Str, noDefaultPortFragment (normalizeURL u) = true →
        normalizeURL (normalizeURL u) = normalizeURL u)
    ∧ normalizeURL (strMk "https://x:443/p") = normalizeURL (strMk "https://x/p")
    ∧ normalizeURL (strMk "https://x:443/p") = strMk "https://x/p"
    ∧ normalizeURL (strMk "http://x:443/p") = strMk "http://x/p"
    ∧ normalizeURL (strMk "http://x:80/p") = strMk "http://x/p"
    ∧ normalizeURL (strMk "https://x:80/p") = strMk "https://x/p"
    ∧ ∀ u : Str, normalizeServiceURL u = normalizeURL u := by
  refine ⟨fun u h => normalizeURL_eq_self h, by decide, by decide, by decide,
    by decide, by decide, fun u => rfl⟩

/-- Witness for the amended C1 theorem at the concrete input
`"http://a:80/x"`, whose normalization has no residual fragment. -/
theorem c1_normalize_witness :
    normalizeURL (normalizeURL (strMk "http://a:80/x")) =
      normalizeURL (strMk "http://a:80/x") :=
  c1_normalize_amended.1 (strMk "http://a:80/x") (by decide)

/-! ## C4: module-level deadlines of the port-scan invocations
(src/backend/service/pipeline/port.go, `ScanPipeline.runPortScan`). -/

/-- The per-target deadline (in minutes) chosen by `runPortScan`:
`timeout := 10 * time.Minute; if p.task.Config.PortScanMode == "full"
{ timeout = 30 * time.Minute }`. -/
def runPortScanDeadlineMinutes (portScanMode : Str) : Nat :=
  if portScanMode = strMk "full" then 30 else 10

/-- The mode defaulting in `runPortScan`: an empty mode becomes
`"quick"`. -/
def effectivePortScanMode (portScanMode : Str) : Str :=
  if portScanMode = [] then strMk "quick" else portScanMode

/-- The ports argument handed to the external gogo scanner by the mode
dispatch of `runPortScan` together with `QuickScan`/`Top1000Scan`/
`FullScan`/`ScanPorts` (src/unnamed/part_001): full scans 1-65535,
top1000 uses gogo's "top2" preset, quick (and any unknown mode) uses
"top1", custom uses the configured range defaulting to "1-1000". -/
def gogoPortsArg (portScanMode portRange : Str) : Str :=
  if effectivePortScanMode portScanMode = strMk "full" then strMk "1-65535"
  else if effectivePortScanMode portScanMode = strMk "top1000" then strMk "top2"
  else if effectivePortScanMode portScanMode = strMk "custom" then
    (if portRange = [] then strMk "1-1000" else portRange)
  else strMk "top1"

/-- C4 counterexample: the claimed mode deadlines (quick 10, top1000 30,
full 60, custom 30 minutes) do not match the code, which uses 10 minutes
for every mode except `full`, and 30 minutes for `full`. -/
theorem c4_port_deadline_counterexample :
    runPortScanDeadlineMinutes (strMk "top1000") ≠ 30
    ∧ runPortScanDeadlineMinutes (strMk "full") ≠ 60
    ∧ runPortScanDeadlineMinutes (strMk "custom") ≠ 30 := by decide

/-- C4 (amended): the module-level deadline applied to each external
port-scan invocation is 30 minutes when the configured mode is `full`
and 10 minutes for every other mode string (`quick`, `top1000`,
`custom`, and empty); an empty mode is dispatched as `quick`, and the
dispatch hands gogo "1-65535" / "top2" / "top1" / the custom range
(defaulting to "1-1000") respectively. -/
theorem c4_port_deadline_amended :
    runPortScanDeadlineMinutes (strMk "full") = 30
    ∧ (∀ m : Str, m ≠ strMk "full" → runPortScanDeadlineMinutes m = 10)
    ∧ effectivePortScanMode [] = strMk "quick"
    ∧ gogoPortsArg (strMk "full") [] = strMk "1-65535"
    ∧ gogoPortsArg (strMk "top1000") [] = strMk "top2"
    ∧ gogoPortsArg (strMk "quick") [] = strMk "top1"
    ∧ gogoPortsArg [] [] = strMk "top1"
    ∧ gogoPortsArg (strMk "custom") [] = strMk "1-1000"
    ∧ (∀ r : Str, r ≠ [] → gogoPortsArg (strMk "custom") r = r) := by
  refine ⟨rfl, fun m hm => ?_, by decide, by decide, by decide, by decide,
    by decide, by decide, fun r hr => ?_⟩
  · simp [runPortScanDeadlineMinutes, hm]
  · simp only [gogoPortsArg]
    rw [if_neg (by decide), if_neg (by decide), if_pos (by decide), if_neg hr]

/-- Witness for the amended C4 theorem at mode `"top1000"` and
custom range `"8080"`. -/
theorem c4_port_deadline_witness :
    runPortScanDeadlineMinutes (strMk "top1000") = 10
    ∧ gogoPortsArg (strMk "custom") (strMk "8080") = strMk "8080" :=
  ⟨c4_port_deadline_amended.2.1 (strMk "top1000") (by decide),
    c4_port_deadline_amended.2.2.2.2.2.2.2.2 (strMk "8080") (by decide)⟩

/-! ## C8: DSL fingerprint rules
(src/backend/scanner/fingerprint/dsl_engine.go). -/

/-- Model of Go `strings.ToLower` for the ASCII rule conditions used by
the engine. -/
def goToLower (s : Str) : Str := s.map Char.toLower

/-- A fingerprint rule as loaded by the DSL engine (the fields consumed
by `matchRule`). -/
structure FingerprintRule where
  id : Str
  name : Str
  condition : Str
  dsl : List Str
deriving DecidableEq, Repr

/-- A rule match as produced by `matchRule` (the fields the claim is
about). -/
structure FingerprintMatch where
  ruleName : Str
  dslMatched : List Str
  confidence : Nat
deriving DecidableEq, Repr

/-- The per-rule normalization of `DSLEngine.LoadRulesFromFile`: the
map key becomes ID and Name, and an empty condition defaults to
`"or"`. -/
def loadRuleNormalize (key : Str) (r : FingerprintRule) : FingerprintRule :=
  { r with
      id := key
      name := key
      condition := if r.condition = [] then strMk "or" else r.condition }

/-- The clause loop of `DSLEngine.matchRule`, parametrized by the DSL
evaluator `eval dsl = evaluateDSL(dsl, resp)`: in OR mode the loop
stops at the first matching clause; in AND mode every clause must match
or the rule yields no match. Returns the collected `matchedDSLs`
(`none` models the early `return nil` of the AND mode). -/
def matchLoop (eval : Str → Bool) (isAnd : Bool) : List Str → Option (List Str)
  | [] => some []
  | d :: ds =>
    if eval d then
      if isAnd then (matchLoop eval isAnd ds).map (fun ms => d :: ms)
      else some [d]
    else
      if isAnd then none else matchLoop eval isAnd ds

/-- The confidence cascade of `matchRule`: 70, overridden by 85 when at
least two clauses matched, overridden by 95 for an AND rule with every
clause matched. -/
def matchConfidence (isAnd : Bool) (matchedLen dslLen : Nat) : Nat :=
  if isAnd && matchedLen == dslLen then 95
  else if 2 ≤ matchedLen then 85
  else 70

/-- `DSLEngine.matchRule`, with the HTTP response abstracted into the
clause evaluator `eval`. -/
def matchRule (eval : Str → Bool) (rule : FingerprintRule) :
    Option FingerprintMatch :=
  if rule.dsl = [] then none
  else
    match matchLoop eval (goToLower rule.condition == strMk "and") rule.dsl with
    | none => none
    | some matched =>
      if matched = [] then none
      else some ⟨rule.name, matched,
        matchConfidence (goToLower rule.condition == strMk "and")
          matched.length rule.dsl.length⟩

theorem matchLoop_and (eval : Str → Bool) (ds : List Str) :
    matchLoop eval true ds = if ds.all eval then some ds else none := by
  induction ds with
  | nil => simp [matchLoop]
  | cons d ds ih =>
    cases h : eval d
    · simp [matchLoop, h]
    · rw [List.all_cons, h]
      simp only [matchLoop, h, if_pos rfl, ih, Bool.true_and]
      cases hall : ds.all eval <;> simp

theorem matchLoop_or (eval : Str → Bool) (ds : List Str) :
    matchLoop eval false ds =
      some (match ds.find? eval with | some d => [d] | none => []) := by
  induction ds with
  | nil => simp [matchLoop]
  | cons d ds ih =>
    cases h : eval d
    · simp [matchLoop, h, ih, List.find?]
    · simp [matchLoop, h, List.find?]

/-- C8 counterexample: "confidence 85 when two or more clauses matched"
and "70 when exactly one clause matched" are false as a case analysis.
An AND rule whose two clauses both match gets confidence 95, not 85
(an OR rule stops at its first matching clause, so two matched clauses
force the AND-all case); and an AND rule with a single matching clause
gets 95, not 70. -/
theorem c8_confidence_counterexample :
    matchRule (fun _ => true)
        ⟨strMk "r", strMk "r", strMk "and", [strMk "a", strMk "b"]⟩ =
      some ⟨strMk "r", [strMk "a", strMk "b"], 95⟩
    ∧ matchRule (fun _ => true)
        ⟨strMk "r", strMk "r", strMk "and", [strMk "a"]⟩ =
      some ⟨strMk "r", [strMk "a"], 95⟩ := by decide

/-- C8 (amended): a rule's condition defaults to `or` at load time and
is compared case-insensitively against `and`. An AND rule yields a
match iff every DSL clause matches, and a matching AND rule always has
`dslMatched` equal to the whole clause list and confidence 95 (even for
a single clause). An OR rule stops at the first matching clause, so a
matching OR rule records exactly that one clause and has confidence 70.
The intermediate value 85 (two or more matches without the AND-all
override) is never the final confidence; the code's cascade is
70 → 85 (≥2 matched) → 95 (AND, all matched). -/
theorem matchRule_of_and (eval : Str → Bool) (rule : FingerprintRule)
    (hand : (goToLower rule.condition == strMk "and") = true)
    (hne : rule.dsl ≠ []) :
    matchRule eval rule =
      if rule.dsl.all eval then some ⟨rule.name, rule.dsl, 95⟩ else none := by
  unfold matchRule
  rw [if_neg hne, hand, matchLoop_and]
  cases hall : rule.dsl.all eval
  · simp
  · simp [hne, matchConfidence]

theorem matchRule_of_or (eval : Str → Bool) (rule : FingerprintRule)
    (hand : (goToLower rule.condition == strMk "and") = false)
    (hne : rule.dsl ≠ []) :
    matchRule eval rule =
      match rule.dsl.find? eval with
      | some d => some ⟨rule.name, [d], 70⟩
      | none => none := by
  unfold matchRule
  rw [if_neg hne, hand, matchLoop_or]
  cases hfind : rule.dsl.find? eval
  · simp
  · simp [matchConfidence]

theorem c8_confidence_amended (eval : Str → Bool) (rule : FingerprintRule) :
    (∀ r : FingerprintRule, r.condition = [] →
        (loadRuleNormalize (strMk "k") r).condition = strMk "or")
    ∧ ((goToLower rule.condition == strMk "and") = true → rule.dsl ≠ [] →
        ((matchRule eval rule).isSome = true ↔ rule.dsl.all eval = true))
    ∧ (∀ m : FingerprintMatch, matchRule eval rule = some m →
        (goToLower rule.condition == strMk "and") = true →
        m.dslMatched = rule.dsl ∧ m.confidence = 95)
    ∧ (∀ m : FingerprintMatch, matchRule eval rule = some m →
        (goToLower rule.condition == strMk "and") = false →
        m.confidence = 70 ∧ ∃ d : Str,
          rule.dsl.find? eval = some d ∧ m.dslMatched = [d])
    ∧ (∀ m : FingerprintMatch, matchRule eval rule = some m →
        m.confidence = 70 ∨ m.confidence = 95) := by
  have hand95 : ∀ m : FingerprintMatch, matchRule eval rule = some m →
      (goToLower rule.condition == strMk "and") = true →
      m.dslMatched = rule.dsl ∧ m.confidence = 95 := by
    intro m hm hand
    by_cases hne : rule.dsl = []
    · unfold matchRule at hm
      rw [if_pos hne] at hm
      exact absurd hm (by simp)
    · rw [matchRule_of_and eval rule hand hne] at hm
      split at hm
      · obtain rfl := Option.some.inj hm
        exact ⟨rfl, rfl⟩
      · exact absurd hm (by simp)
  have hor70 : ∀ m : FingerprintMatch, matchRule eval rule = some m →
      (goToLower rule.condition == strMk "and") = false →
      m.confidence = 70 ∧ ∃ d : Str,
        rule.dsl.find? eval = some d ∧ m.dslMatched = [d] := by
    intro m hm hand
    by_cases hne : rule.dsl = []
    · unfold matchRule at hm
      rw [if_pos hne] at hm
      exact absurd hm (by simp)
    · rw [matchRule_of_or eval rule hand hne] at hm
      cases hfind : rule.dsl.find? eval with
      | none => rw [hfind] at hm; exact absurd hm (by simp)
      | some d =>
        rw [hfind] at hm
        obtain rfl := Option.some.inj hm
        exact ⟨rfl, ⟨d, rfl, rfl⟩⟩
  refine ⟨?_, ?_, hand95, hor70, ?_⟩
  · intro r h
    simp [loadRuleNormalize, h]
  · intro hand hne
    rw [matchRule_of_and eval rule hand hne]
    cases hall : rule.dsl.all eval <;> simp
  · intro m hm
    cases hand : (goToLower rule.condition == strMk "and")
    · exact Or.inl (hor70 m hm hand).1
    · exact Or.inr (hand95 m hm hand).2

/-- Witness for the amended C8 theorem: a two-clause OR rule on an
evaluator matching only the second clause yields confidence 70 with
that single clause recorded. -/
theorem c8_confidence_witness :
    matchRule (fun d => d == strMk "b")
        ⟨strMk "r", strMk "r", strMk "or", [strMk "a", strMk "b"]⟩ =
      some ⟨strMk "r", [strMk "b"], 70⟩ ∧ (70 : Nat) = 70 := by
  have h := (c8_confidence_amended (fun d => d == strMk "b")
    ⟨strMk "r", strMk "r", strMk "or", [strMk "a", strMk "b"]⟩).2.2.2.1
    ⟨strMk "r", [strMk "b"], 70⟩ (by decide) (by decide)
  exact ⟨by decide, h.1⟩

/-! ## Shared helpers for the line-parsing loops -/

/-- ASCII whitespace recognized by Go `strings.TrimSpace` on the ASCII
lines at hand. -/
def isGoSpace (c : Char) : Bool :=
  c == ' ' || c == Char.ofNat 9 || c == Char.ofNat 10 || c == Char.ofNat 11 ||
    c == Char.ofNat 12 || c == Char.ofNat 13

/-- Model of Go `strings.TrimSpace`. -/
def goTrimSpace (s : Str) : Str :=
  ((s.dropWhile isGoSpace).reverse.dropWhile isGoSpace).reverse

/-- Decimal digit test. -/
def isDigitCh (c : Char) : Bool := '0' ≤ c && c ≤ '9'

/-- Whether all characters are decimal digits. -/
def allDigits (s : Str) : Bool := s.all isDigitCh

/-- Numeric value of a digit character. -/
def digitVal (c : Char) : Nat := c.toNat - 48

/-- Value of a digit string. -/
def decValue (s : Str) : Nat := s.foldl (fun acc c => acc * 10 + digitVal c) 0

/-- Decimal rendering, structured on a fuel argument so that the
kernel can evaluate it (`fuel` bounds the number of digits; any fuel
above the digit count gives the same answer). -/
def uitoaAux : Nat → Nat → Str
  | 0, _ => []
  | fuel + 1, n =>
    if n < 10 then [Char.ofNat (48 + n)]
    else uitoaAux fuel (n / 10) ++ [Char.ofNat (48 + n % 10)]

/-- Go `uitoa`: decimal rendering of an unsigned integer without
leading zeros (used by `net.IP.String` and `fmt.Sprintf("%d", ..)`);
`n + 1` is always enough fuel for the digits of `n`. -/
def uitoa (n : Nat) : Str := uitoaAux (n + 1) n

/-- Rendering of a Go `int` as by `fmt.Sprintf("%d", n)`. -/
def intToStr (n : Int) : Str :=
  if n < 0 then '-' :: uitoa n.natAbs else uitoa n.toNat

/-- Model of Go `strconv.Atoi` (values small enough that 64-bit
overflow is irrelevant): optional sign followed by one or more decimal
digits, with the whole string consumed. -/
def goAtoi : Str → Option Int
  | [] => none
  | '+' :: ds =>
    if ds ≠ [] ∧ allDigits ds = true then some ((decValue ds : Nat) : Int)
    else none
  | '-' :: ds =>
    if ds ≠ [] ∧ allDigits ds = true then some (-((decValue ds : Nat) : Int))
    else none
  | ds =>
    if allDigits ds = true then some ((decValue ds : Nat) : Int) else none

/-- A `foldl` preserves any invariant preserved by each step. -/
theorem foldl_preserve {α σ : Type} (f : σ → α → σ) (P : σ → Prop)
    (h : ∀ s a, P s → P (f s a)) :
    ∀ (l : List α) (s : σ), P s → P (l.foldl f s) := by
  intro l
  induction l with
  | nil => intro s hs; exact hs
  | cons a l ih => intro s hs; exact ih (f s a) (h s a hs)

/-! ## C5: parsing the port scanner's JSON-lines stdout
(src/unnamed/part_001, `GoGoScanner.ScanPorts` and
`GoGoScanner.convertResult`). -/

/-- The gogo JSON-lines record `{ip, port, protocol, status, title,
midware, frameworks}` (framework map keys as a list). -/
structure GoGoResult where
  ip : Str
  port : Str
  protocol : Str
  status : Str
  title : Str
  midware : Str
  frameworks : List Str
deriving DecidableEq, Repr

/-- The scanner-agnostic port record populated by `convertResult`. -/
structure PortResult where
  port : Int
  state : Str
  service : Str
  version : Str
  banner : Str
  fingerprint : List Str
deriving DecidableEq, Repr

/-- `guessService` (src/unnamed/part_001), with the YAML-loaded
port→service map abstracted as `svcMap`. -/
def guessService (svcMap : Int → Option Str) (port : Int) : Str :=
  match svcMap port with
  | some s => s
  | none => strMk "unknown"

/-- `GoGoScanner.convertResult`: drops records with empty or "closed"
status and records whose port is non-numeric or non-positive; otherwise
produces an open-port record. -/
def convertResult (svcMap : Int → Option Str) (g : GoGoResult) :
    Option PortResult :=
  if g.status = [] ∨ g.status = strMk "closed" then none
  else
    match goAtoi g.port with
    | none => none
    | some port =>
      if port ≤ 0 then none
      else
        some { port := port
               state := strMk "open"
               service :=
                 if g.protocol = [] ∨ g.protocol = strMk "tcp"
                 then guessService svcMap port else g.protocol
               version := g.midware
               banner := g.title
               fingerprint := g.frameworks }

/-- The `"ip:port"` dedup key of the ScanPorts loop
(`fmt.Sprintf("%s:%d", gogoResult.IP, portResult.Port)`). -/
def portKey (ip : Str) (port : Int) : Str := ip ++ strMk ":" ++ intToStr port

/-- One iteration of the ScanPorts stdout loop over a raw line, with
`json.Unmarshal` abstracted as `parse`. The state is the dedup map
(list of seen keys) paired with the accumulated `result.Ports`. -/
def scanPortsStep (svcMap : Int → Option Str)
    (parse : Str → Option GoGoResult)
    (st : List Str × List PortResult) (rawLine : Str) :
    List Str × List PortResult :=
  if goStartsWith (goTrimSpace rawLine) (strMk "[") = true ∨
      goTrimSpace rawLine = [] then st
  else
    match parse (goTrimSpace rawLine) with
    | none => st
    | some g =>
      match convertResult svcMap g with
      | none => st
      | some pr =>
        if st.1.contains (portKey g.ip pr.port) then st
        else (portKey g.ip pr.port :: st.1, st.2 ++ [pr])

/-- The ports list produced by the ScanPorts stdout loop. -/
def scanPorts (svcMap : Int → Option Str) (parse : Str → Option GoGoResult)
    (lines : List Str) : List PortResult :=
  (lines.foldl (scanPortsStep svcMap parse) ([], [])).2

/-- The ScanPorts loop instrumented to keep each accepted record paired
with the dedup key under which it was accepted. -/
def scanPortsKeyedStep (svcMap : Int → Option Str)
    (parse : Str → Option GoGoResult)
    (st : List Str × List (Str × PortResult)) (rawLine : Str) :
    List Str × List (Str × PortResult) :=
  if goStartsWith (goTrimSpace rawLine) (strMk "[") = true ∨
      goTrimSpace rawLine = [] then st
  else
    match parse (goTrimSpace rawLine) with
    | none => st
    | some g =>
      match convertResult svcMap g with
      | none => st
      | some pr =>
        if st.1.contains (portKey g.ip pr.port) then st
        else (portKey g.ip pr.port :: st.1, st.2 ++ [(portKey g.ip pr.port, pr)])

/-- Keyed variant of `scanPorts`. -/
def scanPortsKeyed (svcMap : Int → Option Str)
    (parse : Str → Option GoGoResult) (lines : List Str) :
    List (Str × PortResult) :=
  (lines.foldl (scanPortsKeyedStep svcMap parse) ([], [])).2

theorem scanPortsKeyedStep_shape (svcMap : Int → Option Str)
    (parse : Str → Option GoGoResult)
    (st : List Str × List (Str × PortResult)) (rawLine : Str) :
    scanPortsKeyedStep svcMap parse st rawLine = st ∨
      ∃ key pr, key ∉ st.1 ∧
        scanPortsKeyedStep svcMap parse st rawLine =
          (key :: st.1, st.2 ++ [(key, pr)]) := by
  unfold scanPortsKeyedStep
  split
  · exact Or.inl rfl
  · split
    · exact Or.inl rfl
    · split
      · exact Or.inl rfl
      · split
        · exact Or.inl rfl
        · next hseen =>
          exact Or.inr ⟨_, _,
            fun hmem => hseen (List.elem_eq_true_of_mem hmem), rfl⟩

theorem scanPortsKeyedStep_inv (svcMap : Int → Option Str)
    (parse : Str → Option GoGoResult)
    (st : List Str × List (Str × PortResult)) (rawLine : Str)
    (h : st.1.Nodup ∧ st.2.map Prod.fst = st.1.reverse) :
    (scanPortsKeyedStep svcMap parse st rawLine).1.Nodup ∧
      (scanPortsKeyedStep svcMap parse st rawLine).2.map Prod.fst =
        (scanPortsKeyedStep svcMap parse st rawLine).1.reverse := by
  rcases scanPortsKeyedStep_shape svcMap parse st rawLine with heq |
    ⟨key, pr, hnmem, heq⟩
  · rw [heq]; exact h
  · rw [heq]
    exact ⟨List.Nodup.cons hnmem h.1, by simp [h.2]⟩

theorem scanPortsStep_eq_proj (svcMap : Int → Option Str)
    (parse : Str → Option GoGoResult) (seen : List Str)
    (accK : List (Str × PortResult)) (rawLine : Str) :
    scanPortsStep svcMap parse (seen, accK.map Prod.snd) rawLine =
      ((scanPortsKeyedStep svcMap parse (seen, accK) rawLine).1,
        (scanPortsKeyedStep svcMap parse (seen, accK) rawLine).2.map
          Prod.snd) := by
  unfold scanPortsStep scanPortsKeyedStep
  by_cases hskip : goStartsWith (goTrimSpace rawLine) (strMk "[") = true ∨
      goTrimSpace rawLine = []
  · simp only [if_pos hskip]
  · simp only [if_neg hskip]
    cases hp : parse (goTrimSpace rawLine) with
    | none => simp
    | some g =>
      cases hc : convertResult svcMap g with
      | none => simp [hc]
      | some pr =>
        simp only [hc]
        by_cases hseen : portKey g.ip pr.port ∈ seen
        · simp [hseen]
        · simp [hseen]

theorem scanPorts_eq_proj (svcMap : Int → Option Str)
    (parse : Str → Option GoGoResult) :
    ∀ (lines : List Str) (seen : List Str) (accK : List (Str × PortResult)),
      lines.foldl (scanPortsStep svcMap parse) (seen, accK.map Prod.snd) =
        ((lines.foldl (scanPortsKeyedStep svcMap parse) (seen, accK)).1,
          (lines.foldl (scanPortsKeyedStep svcMap parse) (seen, accK)).2.map
            Prod.snd) := by
  intro lines
  induction lines with
  | nil => intro seen accK; rfl
  | cons l lines ih =>
    intro seen accK
    rw [List.foldl_cons, List.foldl_cons,
      scanPortsStep_eq_proj svcMap parse seen accK l]
    exact ih (scanPortsKeyedStep svcMap parse (seen, accK) l).1
      (scanPortsKeyedStep svcMap parse (seen, accK) l).2

/-- C5: in the ScanPorts stdout loop, every line whose trimmed form is
empty or starts with `[` is skipped (leaves the loop state unchanged);
`convertResult` yields no record when the status is empty or
`"closed"`, when the port is non-numeric, or when it is non-positive;
and the accepted records carry pairwise-distinct `(ip, port)` dedup
keys, the keyed instrumentation projecting exactly onto the produced
ports list. -/
theorem c5_scanports_skip_dedup (svcMap : Int → Option Str)
    (parse : Str → Option GoGoResult) (lines : List Str) :
    (∀ (st : List Str × List PortResult) (line : Str),
        goStartsWith (goTrimSpace line) (strMk "[") = true ∨
          goTrimSpace line = [] →
        scanPortsStep svcMap parse st line = st)
    ∧ (∀ g : GoGoResult, g.status = [] ∨ g.status = strMk "closed" →
        convertResult svcMap g = none)
    ∧ (∀ g : GoGoResult, goAtoi g.port = none → convertResult svcMap g = none)
    ∧ (∀ (g : GoGoResult) (p : Int), goAtoi g.port = some p → p ≤ 0 →
        convertResult svcMap g = none)
    ∧ ((scanPortsKeyed svcMap parse lines).map Prod.fst).Nodup
    ∧ (scanPortsKeyed svcMap parse lines).map Prod.snd =
        scanPorts svcMap parse lines := by
  refine ⟨?_, ?_, ?_, ?_, ?_, ?_⟩
  · intro st line h
    unfold scanPortsStep
    rw [if_pos h]
  · intro g h
    unfold convertResult
    rw [if_pos h]
  · intro g h
    unfold convertResult
    by_cases hs : g.status = [] ∨ g.status = strMk "closed"
    · rw [if_pos hs]
    · rw [if_neg hs, h]
  · intro g p h hp
    unfold convertResult
    by_cases hs : g.status = [] ∨ g.status = strMk "closed"
    · rw [if_pos hs]
    · rw [if_neg hs, h]
      simp [hp]
  · have h := foldl_preserve (scanPortsKeyedStep svcMap parse)
      (fun st => st.1.Nodup ∧ st.2.map Prod.fst = st.1.reverse)
      (fun st line hst => scanPortsKeyedStep_inv svcMap parse st line hst)
      lines ([], []) ⟨List.nodup_nil, rfl⟩
    rw [scanPortsKeyed, h.2]
    exact List.nodup_reverse.mpr h.1
  · have h := congrArg Prod.snd (scanPorts_eq_proj svcMap parse lines [] [])
    exact h.symm

/-- Witness for the C5 theorem: the tool-log line `" [info] started"`
is skipped by the loop. -/
theorem c5_scanports_witness :
    scanPortsStep (fun _ => none) (fun _ => none) ([], [])
        (strMk " [info] started") = ([], []) :=
  (c5_scanports_skip_dedup (fun _ => none) (fun _ => none) []).1 ([], [])
    (strMk " [info] started") (Or.inl (by decide))

/-! ## C10: parsing the crawler's JSON-lines output file
(src/unnamed/part_001, `KatanaScanner.Crawl` and
`KatanaScanner.CrawlList`). -/

/-- The fields of a katana JSON-lines record consumed by the parse
loop (`request.method`, `request.endpoint`, `response.status_code`). -/
structure KatanaJSONOutput where
  method : Str
  endpoint : Str
  statusCode : Int
deriving DecidableEq, Repr

/-- A crawled-URL record as built by the parse loop (Go zero values
`""`/`0` for the fields a plain-text line cannot fill). -/
structure KatanaCrawledURL where
  url : Str
  method : Str
  statusCode : Int
deriving DecidableEq, Repr

/-- One iteration of the katana output-file loop over a raw line, with
`json.Unmarshal` abstracted as `parse`. The state is the `seen` dedup
set paired with the accumulated `result.URLs`: empty lines are skipped;
a JSON line contributes its endpoint (if non-empty and unseen) with
method and status code; a non-JSON line contributes itself as a bare
URL record, subject to the same `seen` set. -/
def katanaLineStep (parse : Str → Option KatanaJSONOutput)
    (st : List Str × List KatanaCrawledURL) (rawLine : Str) :
    List Str × List KatanaCrawledURL :=
  if goTrimSpace rawLine = [] then st
  else
    match parse (goTrimSpace rawLine) with
    | some j =>
      if j.endpoint ≠ [] ∧ ¬ st.1.contains j.endpoint = true then
        (j.endpoint :: st.1, st.2 ++ [⟨j.endpoint, j.method, j.statusCode⟩])
      else st
    | none =>
      if ¬ st.1.contains (goTrimSpace rawLine) = true then
        (goTrimSpace rawLine :: st.1,
          st.2 ++ [⟨goTrimSpace rawLine, [], 0⟩])
      else st

/-- The URL list produced by the parse loop shared by `Crawl` and
`CrawlList`. -/
def katanaParseLines (parse : Str → Option KatanaJSONOutput)
    (lines : List Str) : List KatanaCrawledURL :=
  (lines.foldl (katanaLineStep parse) ([], [])).2

/-- The parse loop of single-target `KatanaScanner.Crawl` (textually
identical to the shared loop). -/
def katanaCrawlParse (parse : Str → Option KatanaJSONOutput)
    (lines : List Str) : List KatanaCrawledURL :=
  (lines.foldl (katanaLineStep parse) ([], [])).2

/-- The parse loop of list-mode `KatanaScanner.CrawlList` (textually
identical to the shared loop). -/
def katanaCrawlListParse (parse : Str → Option KatanaJSONOutput)
    (lines : List Str) : List KatanaCrawledURL :=
  (lines.foldl (katanaLineStep parse) ([], [])).2

theorem katanaLineStep_shape (parse : Str → Option KatanaJSONOutput)
    (st : List Str × List KatanaCrawledURL) (rawLine : Str) :
    katanaLineStep parse st rawLine = st ∨
      ∃ u : KatanaCrawledURL, u.url ∉ st.1 ∧
        katanaLineStep parse st rawLine = (u.url :: st.1, st.2 ++ [u]) := by
  unfold katanaLineStep
  split
  · exact Or.inl rfl
  · split
    · next j heq =>
      split
      · next hc =>
        exact Or.inr ⟨⟨j.endpoint, j.method, j.statusCode⟩, fun hmem =>
          hc.2 (List.elem_eq_true_of_mem hmem), rfl⟩
      · exact Or.inl rfl
    · next heq =>
      split
      · next hc =>
        exact Or.inr ⟨⟨goTrimSpace rawLine, [], 0⟩, fun hmem =>
          hc (List.elem_eq_true_of_mem hmem), rfl⟩
      · exact Or.inl rfl

theorem katanaLineStep_inv (parse : Str → Option KatanaJSONOutput)
    (st : List Str × List KatanaCrawledURL) (rawLine : Str)
    (h : st.1.Nodup ∧ st.2.map KatanaCrawledURL.url = st.1.reverse) :
    (katanaLineStep parse st rawLine).1.Nodup ∧
      (katanaLineStep parse st rawLine).2.map KatanaCrawledURL.url =
        (katanaLineStep parse st rawLine).1.reverse := by
  rcases katanaLineStep_shape parse st rawLine with heq | ⟨u, hnmem, heq⟩
  · rw [heq]; exact h
  · rw [heq]
    exact ⟨List.Nodup.cons hnmem h.1, by simp [h.2]⟩

/-- C10: in the katana output parse loop (shared verbatim by the
single-target `Crawl` and the list-mode `CrawlList`), at most one
crawled-URL record is produced per distinct endpoint string; a
non-empty line that fails JSON parsing is not discarded but emitted as
a plain-text URL record with empty method and status code 0, subject to
the same per-endpoint dedup set (and dropped when its text was already
seen as an endpoint). -/
theorem c10_katana_parse (parse : Str → Option KatanaJSONOutput)
    (lines : List Str) :
    ((katanaParseLines parse lines).map KatanaCrawledURL.url).Nodup
    ∧ (∀ (st : List Str × List KatanaCrawledURL) (line : Str),
        goTrimSpace line ≠ [] → parse (goTrimSpace line) = none →
        st.1.contains (goTrimSpace line) = false →
        katanaLineStep parse st line =
          (goTrimSpace line :: st.1, st.2 ++ [⟨goTrimSpace line, [], 0⟩]))
    ∧ (∀ (st : List Str × List KatanaCrawledURL) (line : Str),
        goTrimSpace line ≠ [] → parse (goTrimSpace line) = none →
        st.1.contains (goTrimSpace line) = true →
        katanaLineStep parse st line = st)
    ∧ katanaCrawlParse parse lines = katanaParseLines parse lines
    ∧ katanaCrawlListParse parse lines = katanaParseLines parse lines := by
  refine ⟨?_, ?_, ?_, rfl, rfl⟩
  · have h := foldl_preserve (katanaLineStep parse)
      (fun st => st.1.Nodup ∧ st.2.map KatanaCrawledURL.url = st.1.reverse)
      (fun st line hst => katanaLineStep_inv parse st line hst)
      lines ([], []) ⟨List.nodup_nil, rfl⟩
    rw [katanaParseLines, h.2]
    exact List.nodup_reverse.mpr h.1
  · intro st line hne hp hseen
    unfold katanaLineStep
    rw [if_neg hne, hp]
    rw [if_pos (by simpa using hseen)]
  · intro st line hne hp hseen
    unfold katanaLineStep
    rw [if_neg hne, hp]
    rw [if_neg (by simpa using hseen)]

/-- Witness for the C10 theorem: a plain-text line `"https://a/x"`
under a parser rejecting it (JSON parse failure) is emitted once as a
bare URL record. -/
theorem c10_katana_witness :
    katanaLineStep (fun _ => none) ([], []) (strMk "https://a/x") =
      ([strMk "https://a/x"], [⟨strMk "https://a/x", [], 0⟩]) :=
  (c10_katana_parse (fun _ => none) []).2.1 ([], []) (strMk "https://a/x")
    (by decide) rfl (by decide)

/-! ## C6: wildcard DNS detection and brute-force filtering
(src/backend/scanner/subdomain/active_scanner.go,
`ActiveScanner.detectWildcard` and `ActiveScanner.runBruteForce`). -/

/-- `detectWildcard`: three random labels are resolved; `probes` holds
the IP list of each successful probe (a failed probe contributes `[]`).
`ipCounts[ip]++` over all probes, and the IPs whose count reaches 2 are
returned (as the set of keys of the count map; Go map iteration order is
irrelevant to membership). -/
def detectWildcard (probes : List (List Str)) : List Str :=
  (probes.join.dedup).filter (fun ip => 2 ≤ probes.join.count ip)

/-- The wildcard-filter state set up at the top of `runBruteForce`:
filtering is enabled iff `WildcardDetection` is configured and
`detectWildcard` returned a non-empty set. -/
def wildcardState (wildcardDetection : Bool) (probes : List (List Str)) :
    Bool × List Str :=
  if wildcardDetection then
    if detectWildcard probes ≠ [] then (true, detectWildcard probes)
    else (false, [])
  else (false, [])

/-- The per-candidate decision of the `runBruteForce` worker: a
candidate is emitted (via `addResult`) iff its resolution succeeded with
a non-empty IP list and, when the wildcard filter is armed, not all of
its IPs lie in the wildcard set. -/
def bruteEmits (wildcardEnabled : Bool) (wildcardIPs : List Str)
    (resolved : Option (List Str)) : Bool :=
  match resolved with
  | none => false
  | some ips =>
    if 0 < ips.length then
      if wildcardEnabled = true ∧ 0 < wildcardIPs.length then
        if ips.all (fun ip => wildcardIPs.contains ip) then false else true
      else true
    else false

theorem count_eq_ite_of_nodup (p : List Str) (ip : Str) (h : p.Nodup) :
    p.count ip = if ip ∈ p then 1 else 0 := by
  induction p with
  | nil => simp
  | cons a l ih =>
    have hnd := List.nodup_cons.mp h
    rw [List.count_cons, ih hnd.2]
    by_cases hip : ip = a
    · subst hip
      simp [hnd.1]
    · have hip' : ¬a = ip := fun hh => hip hh.symm
      simp only [List.mem_cons]
      by_cases hm : ip ∈ l <;> simp [hip, hip', hm]

/-- C6: wildcard detection puts exactly those IPs in the set that were
returned by at least two of the three probes (each probe's answer being
duplicate-free); when the set is non-empty, a brute-force candidate is
dropped iff every one of its IPs is in the set (vacuously including a
candidate with an empty IP list); and when detection finds nothing,
filtering is disabled and a candidate is emitted iff it resolved to a
non-empty IP list. -/
theorem c6_wildcard_filter (p1 p2 p3 : List Str)
    (h1 : p1.Nodup) (h2 : p2.Nodup) (h3 : p3.Nodup) :
    (∀ ip : Str, ip ∈ detectWildcard [p1, p2, p3] ↔
      2 ≤ ((if ip ∈ p1 then 1 else 0) + (if ip ∈ p2 then 1 else 0) +
        (if ip ∈ p3 then 1 else 0) : Nat))
    ∧ (∀ wset : List Str, wset ≠ [] → ∀ ips : List Str,
        (bruteEmits true wset (some ips) = false ↔ ∀ ip ∈ ips, ip ∈ wset))
    ∧ (∀ wd : Bool, detectWildcard [p1, p2, p3] = [] →
        (∀ ips : List Str,
          bruteEmits (wildcardState wd [p1, p2, p3]).1
              (wildcardState wd [p1, p2, p3]).2 (some ips) =
            decide (0 < ips.length))
        ∧ bruteEmits (wildcardState wd [p1, p2, p3]).1
            (wildcardState wd [p1, p2, p3]).2 none = false) := by
  refine ⟨?_, ?_, ?_⟩
  · intro ip
    unfold detectWildcard
    rw [List.mem_filter, List.mem_dedup]
    have hj : ([p1, p2, p3] : List (List Str)).join = p1 ++ (p2 ++ p3) := by
      simp
    rw [hj, List.count_append, List.count_append,
      count_eq_ite_of_nodup p1 ip h1, count_eq_ite_of_nodup p2 ip h2,
      count_eq_ite_of_nodup p3 ip h3, List.mem_append, List.mem_append]
    by_cases m1 : ip ∈ p1 <;> by_cases m2 : ip ∈ p2 <;>
      by_cases m3 : ip ∈ p3 <;> simp [m1, m2, m3]
  · intro wset hne ips
    have hw : 0 < wset.length := by
      cases wset with
      | nil => exact absurd rfl hne
      | cons a l => simp
    cases ips with
    | nil => simp [bruteEmits]
    | cons ip ips =>
      simp only [bruteEmits]
      rw [if_pos (by simp : 0 < (ip :: ips).length), if_pos (by simp [hw])]
      by_cases hall : ((ip :: ips).all fun i => wset.contains i) = true
      · rw [if_pos hall]
        simp only [List.all_eq_true] at hall
        constructor
        · intro _ i hi
          exact List.mem_of_elem_eq_true (hall i hi)
        · intro _; rfl
      · rw [if_neg hall]
        constructor
        · intro htf; exact absurd htf (by simp)
        · intro hmem
          exact absurd (List.all_eq_true.mpr (fun i hi =>
            List.elem_eq_true_of_mem (hmem i hi))) hall
  · intro wd hdet
    have hstate : wildcardState wd [p1, p2, p3] = (false, []) := by
      unfold wildcardState
      cases wd
      · simp
      · simp [hdet]
    rw [hstate]
    constructor
    · intro ips
      simp only [bruteEmits]
      by_cases hlen : 0 < ips.length
      · rw [if_pos hlen, if_neg (by simp)]
        simp [hlen]
      · rw [if_neg hlen]
        simp [hlen]
    · rfl

/-- Witness for the C6 theorem: with probes answering `1.2.3.4`,
`1.2.3.4` and a failure, the IP `1.2.3.4` (seen twice) is in the
wildcard set; with that set armed, a candidate resolving only to
`1.2.3.4` is dropped. -/
theorem c6_wildcard_witness :
    (strMk "1.2.3.4" ∈ detectWildcard
      [[strMk "1.2.3.4"], [strMk "1.2.3.4"], []])
    ∧ bruteEmits true [strMk "1.2.3.4"] (some [strMk "1.2.3.4"]) = false := by
  have h := c6_wildcard_filter [strMk "1.2.3.4"] [strMk "1.2.3.4"] []
    (by decide) (by decide) List.nodup_nil
  refine ⟨(h.1 (strMk "1.2.3.4")).mpr (by decide), ?_⟩
  exact (h.2.1 [strMk "1.2.3.4"] (by decide) [strMk "1.2.3.4"]).mpr
    (by decide)

/-! ## C7: the DNS fallback for hostnames emitted without IPs
(src/backend/service/pipeline/subdomain_module.go, `resolveIPs`, and
src/backend/scanner/subdomain/active_scanner.go, `resolveDomain`). -/

/-- The four resolvers configured on the SubdomainScan module
(`m.dnsResolvers` in `NewSubdomainScanModuleWithConfig`). -/
def moduleDnsResolvers : List Str :=
  [strMk "8.8.8.8:53", strMk "1.1.1.1:53", strMk "114.114.114.114:53",
    strMk "223.5.5.5:53"]

/-- The resolver servers actually dialled by
`SubdomainScanModule.resolveIPs` — the function performs a single
`LookupIPAddr` whose dialer, despite the adjacent comment about random
selection, always uses `m.dnsResolvers[0]`. -/
def resolveIPsDialledServers : List Str := [moduleDnsResolvers.getD 0 []]

/-- The context timeout (seconds) around the single lookup of
`resolveIPs`. -/
def resolveIPsOverallTimeoutSeconds : Nat := 10

/-- The dialer timeout (seconds) inside `resolveIPs`. -/
def resolveIPsDialTimeoutSeconds : Nat := 5

/-- The six recursive resolvers of the active scanner
(`dnsServers` in active_scanner.go). -/
def activeDnsServers : List Str :=
  [strMk "8.8.8.8:53", strMk "1.1.1.1:53", strMk "223.5.5.5:53",
    strMk "114.114.114.114:53", strMk "8.8.4.4:53", strMk "1.0.0.1:53"]

/-- The rotation of `ActiveScanner.resolveDomain`: starting from the
random index `startIdx`, all six servers are tried in order
`(startIdx + i) % 6`. -/
def resolveDomainAttempts (startIdx : Fin 6) : List Str :=
  (List.range activeDnsServers.length).map
    (fun i => activeDnsServers.getD
      ((startIdx.val + i) % activeDnsServers.length) [])

/-- The per-attempt timeout of `resolveDomain`: the configured
`ResolveTimeout`, defaulting to 5 seconds when non-positive. -/
def resolveDomainTimeoutSeconds (cfgResolveTimeout : Int) : Int :=
  if cfgResolveTimeout ≤ 0 then 5 else cfgResolveTimeout

/-- The `ResolveTimeout` the pipeline module hands the active scanner
(`ResolveTimeout: 3` in `NewSubdomainScanModuleWithConfig`). -/
def pipelineResolveTimeoutConfig : Int := 3

/-- C7 counterexample: the IP-resolution fallback `resolveIPs` used for
hostnames emitted without IPs does not try six resolvers with a
3-second timeout each — it performs exactly one lookup, through the
first of its four configured resolvers, under a 10-second context with
a 5-second dial timeout. -/
theorem c7_resolver_counterexample :
    resolveIPsDialledServers.length = 1
    ∧ resolveIPsDialledServers.length ≠ 6
    ∧ resolveIPsDialledServers = [strMk "8.8.8.8:53"]
    ∧ moduleDnsResolvers.length = 4
    ∧ resolveIPsOverallTimeoutSeconds ≠ 3
    ∧ resolveIPsDialTimeoutSeconds ≠ 3 := by
  refine ⟨rfl, by decide, by decide, rfl, by decide, by decide⟩

/-- C7 (amended): the fallback `resolveIPs` performs a single lookup
through the first of four configured resolvers (`8.8.8.8:53`) with a
10-second overall timeout and a 5-second dial timeout; the six-resolver
random rotation belongs to the active scanner's `resolveDomain`, which
(for every random start index) tries each of the six well-known
recursive resolvers exactly once, with a per-attempt timeout equal to
the configured `ResolveTimeout` — 3 seconds as configured by the
pipeline module, 5 seconds when the configuration is non-positive. -/
theorem c7_resolver_amended :
    resolveIPsDialledServers = [strMk "8.8.8.8:53"]
    ∧ resolveIPsOverallTimeoutSeconds = 10
    ∧ resolveIPsDialTimeoutSeconds = 5
    ∧ activeDnsServers.length = 6
    ∧ (∀ startIdx : Fin 6,
        (resolveDomainAttempts startIdx).length = 6
        ∧ (resolveDomainAttempts startIdx).Nodup
        ∧ (resolveDomainAttempts startIdx).Perm activeDnsServers)
    ∧ resolveDomainTimeoutSeconds pipelineResolveTimeoutConfig = 3
    ∧ (∀ t : Int, t ≤ 0 → resolveDomainTimeoutSeconds t = 5) := by
  refine ⟨rfl, rfl, rfl, rfl, by decide, rfl, fun t ht => ?_⟩
  unfold resolveDomainTimeoutSeconds
  rw [if_pos ht]

/-- Witness for the amended C7 theorem: at start index 4 the rotation
still visits all six servers, and a zero `ResolveTimeout` defaults to
5 seconds. -/
theorem c7_resolver_witness :
    (resolveDomainAttempts 4).Nodup ∧ resolveDomainTimeoutSeconds 0 = 5 :=
  ⟨(c7_resolver_amended.2.2.2.2.1 4).2.1,
    c7_resolver_amended.2.2.2.2.2.2 0 (by decide)⟩

/-! ## C3: behaviour when a module's external tool binary is absent
(src/unnamed/part_009, `CrawlerModule.ModuleRun` and
`DirScanModule.ModuleRun`). -/

/-- The observable actions of a module run that the availability check
decides between (bodies of the batch/stream processing are abstracted
as `runBody`; both start the next module's run first when one exists). -/
inductive ModuleEffect where
  | logSkipWarning
  | closeNextInput
  | startNextModule
  | reportModuleStart
  | reportModuleComplete
  | runBody
deriving DecidableEq, Repr

/-- The tool-availability decision of `CrawlerModule.ModuleRun`: when
neither katana nor rad is usable, it logs a skip warning, closes the
next module's input (without ever starting that module's run) and
returns nil; otherwise it proceeds into the batch or stream body, each
of which begins by starting the next module's run. -/
def crawlerModuleRun (useKatana katanaToolOk useRad radToolOk
    batchMode hasNext : Bool) : List ModuleEffect × Option Str :=
  if ¬(useKatana && katanaToolOk) = true ∧ ¬(useRad && radToolOk) = true then
    (ModuleEffect.logSkipWarning ::
      (if hasNext then [ModuleEffect.closeNextInput] else []), none)
  else if (batchMode && (useKatana && katanaToolOk)) = true then
    ((if hasNext then [ModuleEffect.startNextModule] else []) ++
      [ModuleEffect.runBody], none)
  else
    ((if hasNext then [ModuleEffect.startNextModule] else []) ++
      [ModuleEffect.runBody], none)

/-- The tool-availability decision of `DirScanModule.ModuleRun`: module
start is reported and (by `defer`) completion is always reported last;
when spray is unavailable the run logs a skip warning and returns the
error "spray scanner not available" — without closing the next module's
input and without starting the next module's run. -/
def dirScanModuleRun (sprayOk batchMode hasNext : Bool) :
    List ModuleEffect × Option Str :=
  if ¬sprayOk = true then
    ([ModuleEffect.reportModuleStart, ModuleEffect.logSkipWarning,
      ModuleEffect.reportModuleComplete],
      some (strMk "spray scanner not available"))
  else
    (ModuleEffect.reportModuleStart ::
      ((if hasNext then [ModuleEffect.startNextModule] else []) ++
        [ModuleEffect.runBody, ModuleEffect.reportModuleComplete]), none)

/-- C3: evaluation of both skip paths. The Crawler run with no usable
crawler logs a warning, closes the next module's input and returns nil
— but with spray absent the DirScan run returns an error and performs
neither a close of the next module's input nor a start of the next
module's run, so the chain past DirScan stays blocked, contradicting
the spec's "downstream modules still run" for that module. -/
theorem c3_tool_absent_dirscan_bug :
    (dirScanModuleRun false true true).2 =
      some (strMk "spray scanner not available")
    ∧ ModuleEffect.closeNextInput ∉ (dirScanModuleRun false true true).1
    ∧ ModuleEffect.startNextModule ∉ (dirScanModuleRun false true true).1
    ∧ ModuleEffect.logSkipWarning ∈ (dirScanModuleRun false true true).1
    ∧ crawlerModuleRun true false true false true true =
      ([ModuleEffect.logSkipWarning, ModuleEffect.closeNextInput], none)
    ∧ ModuleEffect.startNextModule ∉
        (crawlerModuleRun true false true false true true).1 := by decide

/-! ## C9: progress tracker monotonicity
(src/backend/service/pipeline/progress.go). `float64` progress values
are modelled by exact rationals; `int(f)` truncation toward zero by
`goFloatToInt`. -/

/-- One `ModuleProgress` entry of the tracker map. -/
structure ModuleProgressState where
  status : Str
  totalItems : Int
  processedItems : Int
  outputItems : Int
  progress : ℚ
deriving DecidableEq, Repr

/-- The tracker's `moduleProgress` map, as an association list. -/
abbrev TrackerState := List (Str × ModuleProgressState)

/-- Go map assignment `pt.moduleProgress[n] = mp`: replace the entry if
the key exists, otherwise insert it. -/
def setModule (st : TrackerState) (n : Str) (mp : ModuleProgressState) :
    TrackerState :=
  if st.any (fun e => e.1 == n) then
    st.map (fun e => if e.1 == n then (e.1, mp) else e)
  else st ++ [(n, mp)]

/-- `if mp, ok := pt.moduleProgress[n]; ok { ..mutate.. }`: a no-op
when the key is absent. -/
def modifyModule (st : TrackerState) (n : Str)
    (f : ModuleProgressState → ModuleProgressState) : TrackerState :=
  st.map (fun e => if e.1 == n then (e.1, f e.2) else e)

/-- Go map read. -/
def lookupModule (st : TrackerState) (n : Str) :
    Option ModuleProgressState :=
  (st.find? (fun e => e.1 == n)).map Prod.snd

/-- The tracker operations of the claim. -/
inductive TrackerOp where
  | startModule (name : Str) (totalItems : Int)
  | updateModuleTotal (name : Str) (totalItems : Int)
  | incrementModuleProcessed (name : Str) (count : Int)
  | incrementModuleOutput (name : Str) (count : Int)
  | completeModule (name : Str)
deriving DecidableEq, Repr

/-- The `if mp.Progress > 100 { mp.Progress = 100 }` clamp. -/
def capProgress (q : ℚ) : ℚ := if 100 < q then 100 else q

/-- The state change of each tracker method (`StartModule`,
`UpdateModuleTotal`, `IncrementModuleProcessed`,
`IncrementModuleOutput`, `CompleteModule`). -/
def applyOp (st : TrackerState) : TrackerOp → TrackerState
  | .startModule n total =>
    setModule st n
      { status := strMk "running", totalItems := total,
        processedItems := 0, outputItems := 0, progress := 0 }
  | .updateModuleTotal n total =>
    modifyModule st n (fun mp => { mp with totalItems := total })
  | .incrementModuleProcessed n c =>
    modifyModule st n (fun mp =>
      { mp with
          processedItems := mp.processedItems + c
          progress :=
            if 0 < mp.totalItems then
              capProgress (((mp.processedItems + c : Int) : ℚ) /
                ((mp.totalItems : Int) : ℚ) * 100)
            else mp.progress })
  | .incrementModuleOutput n c =>
    modifyModule st n (fun mp =>
      { mp with outputItems := mp.outputItems + c })
  | .completeModule n =>
    modifyModule st n (fun mp =>
      { mp with status := strMk "completed", progress := 100 })

/-- A tracker run from the empty map. -/
def runOps (ops : List TrackerOp) : TrackerState := ops.foldl applyOp []

/-- `DefaultModuleWeights`. -/
def defaultModuleWeights : List (Str × ℚ) :=
  [(strMk "SubdomainScan", 20), (strMk "DomainVerify", 5),
    (strMk "PortPreparation", 5), (strMk "PortScan", 25),
    (strMk "Fingerprint", 15), (strMk "VulnScan", 15),
    (strMk "Crawler", 5), (strMk "DirScan", 5), (strMk "Sensitive", 5)]

/-- Weight lookup with the in-loop default of 10 for unknown modules. -/
def weightOf (weights : List (Str × ℚ)) (n : Str) : ℚ :=
  match weights.find? (fun e => e.1 == n) with
  | some e => e.2
  | none => 10

/-- `activeWeight` of `calculateOverallProgress`. -/
def activeWeightSum (weights : List (Str × ℚ)) (st : TrackerState) : ℚ :=
  (st.map (fun e => weightOf weights e.1)).sum

/-- `totalProgress` of `calculateOverallProgress`. -/
def totalProgressSum (weights : List (Str × ℚ)) (st : TrackerState) : ℚ :=
  (st.map (fun e => e.2.progress / 100 * weightOf weights e.1)).sum

/-- Go `int(f)` conversion (truncation toward zero) on a rational. -/
def goFloatToInt (q : ℚ) : Int := if q < 0 then -(Rat.floor (-q)) else Rat.floor q

/-- `ProgressTracker.calculateOverallProgress`. -/
def calculateOverallProgress (weights : List (Str × ℚ))
    (st : TrackerState) : Int :=
  if activeWeightSum weights st = 0 then 0
  else
    if 100 < goFloatToInt
        (totalProgressSum weights st / activeWeightSum weights st * 100)
    then 100
    else goFloatToInt
      (totalProgressSum weights st / activeWeightSum weights st * 100)

/-- The `ProcessedItems` counter of module `n` (0 when absent). -/
def processedOf (st : TrackerState) (n : Str) : Int :=
  match lookupModule st n with
  | some mp => mp.processedItems
  | none => 0

/-- C9 counterexample. Overall progress is not non-decreasing: after
`StartModule "A" 1; IncrementModuleProcessed "A" 1` the overall is 100,
and the further operations `UpdateModuleTotal "A" 10;
IncrementModuleProcessed "A" 1` (a total update for a dynamically
discovered total, then a positive increment) drop it to 20. A module's
processed count is also not non-decreasing across a repeated
`StartModule`, which resets it to zero. -/
theorem goFloatToInt_eq_floor (q : ℚ) (h : 0 ≤ q) : goFloatToInt q = ⌊q⌋ := by
  unfold goFloatToInt
  rw [if_neg (not_lt.mpr h)]
  rfl

theorem weightOf_A :
    weightOf defaultModuleWeights (strMk "A") = 10 := by
  have hfind : (defaultModuleWeights.find? fun e => e.1 == strMk "A") =
      none := by decide
  unfold weightOf
  rw [hfind]

theorem c9_progress_counterexample :
    calculateOverallProgress defaultModuleWeights
        (runOps [TrackerOp.startModule (strMk "A") 1,
          TrackerOp.incrementModuleProcessed (strMk "A") 1,
          TrackerOp.updateModuleTotal (strMk "A") 10,
          TrackerOp.incrementModuleProcessed (strMk "A") 1])
      < calculateOverallProgress defaultModuleWeights
        (runOps [TrackerOp.startModule (strMk "A") 1,
          TrackerOp.incrementModuleProcessed (strMk "A") 1])
    ∧ processedOf
        (runOps [TrackerOp.startModule (strMk "A") 10,
          TrackerOp.incrementModuleProcessed (strMk "A") 5,
          TrackerOp.startModule (strMk "A") 10]) (strMk "A")
      < processedOf
        (runOps [TrackerOp.startModule (strMk "A") 10,
          TrackerOp.incrementModuleProcessed (strMk "A") 5]) (strMk "A") := by
  constructor
  · have h0 : runOps [TrackerOp.startModule (strMk "A") 1,
        TrackerOp.incrementModuleProcessed (strMk "A") 1] =
        [(strMk "A",
          (⟨strMk "running", 1, 1, 0, 100⟩ : ModuleProgressState))] := by
      norm_num [runOps, applyOp, setModule, modifyModule, capProgress]
    have h1 : runOps [TrackerOp.startModule (strMk "A") 1,
        TrackerOp.incrementModuleProcessed (strMk "A") 1,
        TrackerOp.updateModuleTotal (strMk "A") 10,
        TrackerOp.incrementModuleProcessed (strMk "A") 1] =
        [(strMk "A",
          (⟨strMk "running", 10, 2, 0, 20⟩ : ModuleProgressState))] := by
      norm_num [runOps, applyOp, setModule, modifyModule, capProgress]
    rw [h0, h1]
    unfold calculateOverallProgress activeWeightSum totalProgressSum
    simp only [List.map_cons, List.map_nil, List.sum_cons, List.sum_nil,
      weightOf_A]
    norm_num
    rw [goFloatToInt_eq_floor _ (by norm_num),
      goFloatToInt_eq_floor _ (by norm_num)]
    norm_num
  · decide

/-- Operations that cannot decrease module `n`'s processed counter: any
operation except a (re-)start of `n`, with `n`'s processed-increments
using non-negative counts. -/
def processedBenign (n : Str) : TrackerOp → Prop
  | .startModule m _ => m ≠ n
  | .incrementModuleProcessed m c => m = n → 0 ≤ c
  | _ => True

theorem lookupModule_modify (st : TrackerState) (n m : Str)
    (f : ModuleProgressState → ModuleProgressState) :
    lookupModule (modifyModule st n f) m =
      if n = m then (lookupModule st m).map f else lookupModule st m := by
  induction st with
  | nil => by_cases h : n = m <;> simp [h, lookupModule, modifyModule]
  | cons e es ih =>
    unfold lookupModule modifyModule at ih ⊢
    rw [List.map_cons]
    by_cases hem : (e.1 == m) = true
    · have hem' : e.1 = m := by simpa using hem
      by_cases hnm : n = m
      · subst hnm
        have hen : (e.1 == n) = true := hem
        simp [List.find?_cons, hen, hem]
      · have hen : (e.1 == n) = false := by
          rw [beq_eq_false_iff_ne, hem']
          exact fun hh => hnm hh.symm
        simp [List.find?_cons, hen, hem, hnm]
    · have hem0 : (e.1 == m) = false := by simpa using hem
      by_cases hen : (e.1 == n) = true
      · simpa [List.find?_cons, hen, hem0, -List.find?_map] using ih
      · have hen0 : (e.1 == n) = false := by simpa using hen
        simpa [List.find?_cons, hen0, hem0, -List.find?_map] using ih

theorem lookupModule_append_ne (st : TrackerState) (n m : Str)
    (mp : ModuleProgressState) (h : n ≠ m) :
    lookupModule (st ++ [(n, mp)]) m = lookupModule st m := by
  unfold lookupModule
  induction st with
  | nil =>
    rw [List.nil_append,
      List.find?_cons_of_neg (p := fun x : Str × ModuleProgressState => x.1 == m) _ (by simpa using h),
      List.find?_nil]
  | cons e es ih =>
    rw [List.cons_append]
    by_cases hem : (e.1 == m) = true
    · rw [List.find?_cons_of_pos (p := fun x : Str × ModuleProgressState => x.1 == m) _ hem,
        List.find?_cons_of_pos (p := fun x : Str × ModuleProgressState => x.1 == m) _ hem]
    · rw [List.find?_cons_of_neg (p := fun x : Str × ModuleProgressState => x.1 == m) _ hem,
        List.find?_cons_of_neg (p := fun x : Str × ModuleProgressState => x.1 == m) _ hem]
      exact ih

theorem lookupModule_set_ne (st : TrackerState) (n m : Str)
    (mp : ModuleProgressState) (h : n ≠ m) :
    lookupModule (setModule st n mp) m = lookupModule st m := by
  unfold setModule
  by_cases hany : (st.any fun e => e.1 == n) = true
  · rw [if_pos hany]
    have heq : st.map (fun e => if e.1 == n then (e.1, mp) else e) =
        modifyModule st n (fun _ => mp) := rfl
    rw [heq, lookupModule_modify, if_neg h]
  · rw [if_neg hany]
    exact lookupModule_append_ne st n m mp h

theorem processedOf_step_mono (st : TrackerState) (n : Str)
    (op : TrackerOp) (h : processedBenign n op) :
    processedOf st n ≤ processedOf (applyOp st op) n := by
  cases op with
  | startModule m total =>
    unfold applyOp processedOf
    rw [lookupModule_set_ne st m n _ h]
  | updateModuleTotal m total =>
    unfold applyOp processedOf
    rw [lookupModule_modify]
    by_cases hnm : m = n
    · subst hnm
      cases lookupModule st m <;> simp
    · rw [if_neg hnm]
  | incrementModuleProcessed m c =>
    unfold applyOp processedOf
    rw [lookupModule_modify]
    by_cases hnm : m = n
    · subst hnm
      have hc : 0 ≤ c := h rfl
      cases lookupModule st m with
      | none => simp
      | some mp => simp; omega
    · rw [if_neg hnm]
  | incrementModuleOutput m c =>
    unfold applyOp processedOf
    rw [lookupModule_modify]
    by_cases hnm : m = n
    · subst hnm
      cases lookupModule st m <;> simp
    · rw [if_neg hnm]
  | completeModule m =>
    unfold applyOp processedOf
    rw [lookupModule_modify]
    by_cases hnm : m = n
    · subst hnm
      cases lookupModule st m <;> simp
    · rw [if_neg hnm]

theorem processedOf_ops_mono (n : Str) :
    ∀ (ops : List TrackerOp) (st : TrackerState),
      (∀ op ∈ ops, processedBenign n op) →
      processedOf st n ≤ processedOf (ops.foldl applyOp st) n := by
  intro ops
  induction ops with
  | nil => intro st _; exact le_refl _
  | cons op ops ih =>
    intro st hops
    rw [List.foldl_cons]
    exact le_trans
      (processedOf_step_mono st n op (hops op (List.mem_cons_self op ops)))
      (ih (applyOp st op) (fun o ho => hops o (List.mem_cons_of_mem op ho)))

/-- Well-formedness of a tracker entry (holds for every state the safe
operations reach): non-negative processed counter, progress within
[0, 100], and — while the module is not completed — progress equal to
the clamped processed/total ratio whenever the total is positive. -/
def wfEntry (e : Str × ModuleProgressState) : Prop :=
  0 ≤ e.2.processedItems ∧ 0 ≤ e.2.progress ∧ e.2.progress ≤ 100 ∧
    ((e.2.status ≠ strMk "completed" ∧ 0 < e.2.totalItems) →
      e.2.progress = capProgress ((e.2.processedItems : ℚ) /
        (e.2.totalItems : ℚ) * 100))

/-- Well-formedness of a tracker state. -/
def wfState (st : TrackerState) : Prop := ∀ e ∈ st, wfEntry e

/-- The operations under which overall progress is non-decreasing:
output increments, completions, and non-negative processed increments
on modules that are not yet completed. -/
def overallSafe (st : TrackerState) : TrackerOp → Prop
  | .incrementModuleProcessed m c =>
    0 ≤ c ∧ ∀ e ∈ st, e.1 = m → e.2.status ≠ strMk "completed"
  | .incrementModuleOutput _ _ => True
  | .completeModule _ => True
  | _ => False

/-- A sequence of operations each safe in the state it is applied to. -/
def overallSafeOps : TrackerState → List TrackerOp → Prop
  | _, [] => True
  | st, op :: ops => overallSafe st op ∧ overallSafeOps (applyOp st op) ops

theorem activeWeightSum_modify (weights : List (Str × ℚ))
    (st : TrackerState) (n : Str)
    (f : ModuleProgressState → ModuleProgressState) :
    activeWeightSum weights (modifyModule st n f) =
      activeWeightSum weights st := by
  unfold activeWeightSum modifyModule
  induction st with
  | nil => rfl
  | cons e es ih =>
    rw [List.map_cons, List.map_cons, List.map_cons, List.sum_cons,
      List.sum_cons, ih]
    by_cases hen : (e.1 == n) = true <;> simp [hen]

theorem totalProgressSum_modify_le (weights : List (Str × ℚ))
    (st : TrackerState) (n : Str)
    (f : ModuleProgressState → ModuleProgressState)
    (hw : ∀ m : Str, 0 ≤ weightOf weights m)
    (hf : ∀ e ∈ st, e.1 = n → e.2.progress ≤ (f e.2).progress) :
    totalProgressSum weights st ≤
      totalProgressSum weights (modifyModule st n f) := by
  unfold totalProgressSum modifyModule
  induction st with
  | nil => exact le_refl _
  | cons e es ih =>
    rw [List.map_cons, List.map_cons, List.map_cons, List.sum_cons,
      List.sum_cons]
    have htail := ih (fun x hx hxn => hf x (List.mem_cons_of_mem e hx) hxn)
    by_cases hen : (e.1 == n) = true
    · have hen' : e.1 = n := by simpa using hen
      have hp := hf e (List.mem_cons_self e es) hen'
      have hhead : e.2.progress / 100 * weightOf weights e.1 ≤
          (f e.2).progress / 100 * weightOf weights e.1 := by
        apply mul_le_mul_of_nonneg_right _ (hw e.1)
        exact (div_le_div_right (by norm_num : (0:ℚ) < 100)).mpr hp
      simp only [hen, if_true]
      exact add_le_add hhead htail
    · simp only [hen, Bool.false_eq_true, if_false]
      exact add_le_add (le_refl _) htail

theorem goFloatToInt_mono {a b : ℚ} (h : a ≤ b) :
    goFloatToInt a ≤ goFloatToInt b := by
  unfold goFloatToInt
  by_cases ha : a < 0 <;> by_cases hb : b < 0
  · rw [if_pos ha, if_pos hb]
    have hfl : Rat.floor (-b) ≤ Rat.floor (-a) := by
      show ⌊-b⌋ ≤ ⌊-a⌋
      exact Int.floor_le_floor (neg_le_neg h)
    omega
  · rw [if_pos ha, if_neg hb]
    have h1 : (0 : Int) ≤ Rat.floor (-a) := by
      show (0 : Int) ≤ ⌊-a⌋
      exact Int.floor_nonneg.mpr (by linarith)
    have h2 : (0 : Int) ≤ Rat.floor b := by
      show (0 : Int) ≤ ⌊b⌋
      exact Int.floor_nonneg.mpr (not_lt.mp hb)
    omega
  · exact absurd (lt_of_le_of_lt h hb) ha
  · rw [if_neg ha, if_neg hb]
    show ⌊a⌋ ≤ ⌊b⌋
    exact Int.floor_le_floor h

theorem calculateOverall_mono_modify (weights : List (Str × ℚ))
    (st : TrackerState) (n : Str)
    (f : ModuleProgressState → ModuleProgressState)
    (hw : ∀ m : Str, 0 ≤ weightOf weights m)
    (hf : ∀ e ∈ st, e.1 = n → e.2.progress ≤ (f e.2).progress) :
    calculateOverallProgress weights st ≤
      calculateOverallProgress weights (modifyModule st n f) := by
  unfold calculateOverallProgress
  rw [activeWeightSum_modify]
  by_cases hz : activeWeightSum weights st = 0
  · rw [if_pos hz, if_pos hz]
  · rw [if_neg hz, if_neg hz]
    have hA : 0 < activeWeightSum weights st := by
      have h0 : 0 ≤ activeWeightSum weights st := by
        apply List.sum_nonneg
        intro x hx
        obtain ⟨e, _, rfl⟩ := List.mem_map.mp hx
        exact hw e.1
      exact lt_of_le_of_ne h0 (Ne.symm hz)
    have hS := totalProgressSum_modify_le weights st n f hw hf
    have hq : totalProgressSum weights st / activeWeightSum weights st * 100 ≤
        totalProgressSum weights (modifyModule st n f) /
          activeWeightSum weights st * 100 := by
      apply mul_le_mul_of_nonneg_right _ (by norm_num : (0:ℚ) ≤ 100)
      exact (div_le_div_right hA).mpr hS
    have hfl := goFloatToInt_mono hq
    by_cases h1 : 100 < goFloatToInt
        (totalProgressSum weights st / activeWeightSum weights st * 100) <;>
      by_cases h2 : 100 < goFloatToInt
        (totalProgressSum weights (modifyModule st n f) /
          activeWeightSum weights st * 100)
    · rw [if_pos h1, if_pos h2]
    · omega
    · rw [if_neg h1, if_pos h2]
      omega
    · rw [if_neg h1, if_neg h2]
      exact hfl

theorem capProgress_nonneg {q : ℚ} (h : 0 ≤ q) : 0 ≤ capProgress q := by
  unfold capProgress
  by_cases hq : 100 < q
  · rw [if_pos hq]; norm_num
  · rw [if_neg hq]; exact h

theorem capProgress_le_100 (q : ℚ) : capProgress q ≤ 100 := by
  unfold capProgress
  by_cases hq : 100 < q
  · rw [if_pos hq]
  · rw [if_neg hq]; exact not_lt.mp hq

theorem capProgress_mono {a b : ℚ} (h : a ≤ b) :
    capProgress a ≤ capProgress b := by
  unfold capProgress
  by_cases hqa : 100 < a <;> by_cases hqb : 100 < b
  · rw [if_pos hqa, if_pos hqb]
  · exact absurd (lt_of_lt_of_le hqa h) hqb
  · rw [if_neg hqa, if_pos hqb]
    exact not_lt.mp hqa
  · rw [if_neg hqa, if_neg hqb]
    exact h

theorem overall_safe_step (weights : List (Str × ℚ))
    (hw : ∀ m : Str, 0 ≤ weightOf weights m)
    (st : TrackerState) (op : TrackerOp)
    (hwf : wfState st) (hsafe : overallSafe st op) :
    wfState (applyOp st op) ∧
      calculateOverallProgress weights st ≤
        calculateOverallProgress weights (applyOp st op) := by
  cases op with
  | startModule m t => exact absurd hsafe (by simp [overallSafe])
  | updateModuleTotal m t => exact absurd hsafe (by simp [overallSafe])
  | incrementModuleProcessed m c =>
    obtain ⟨hc, hncomp⟩ := hsafe
    simp only [applyOp]
    constructor
    · intro e' he'
      obtain ⟨e, he, heq⟩ := List.mem_map.mp he'
      by_cases hem : (e.1 == m) = true
      · rw [if_pos hem] at heq
        subst heq
        have hwfe := hwf e he
        refine ⟨add_nonneg hwfe.1 hc, ?_, ?_, ?_⟩
        · by_cases ht : 0 < e.2.totalItems
          · simp only [if_pos ht]
            apply capProgress_nonneg
            apply mul_nonneg _ (by norm_num)
            apply div_nonneg
            · exact_mod_cast add_nonneg hwfe.1 hc
            · exact_mod_cast le_of_lt ht
          · simp only [if_neg ht]
            exact hwfe.2.1
        · by_cases ht : 0 < e.2.totalItems
          · simp only [if_pos ht]
            exact capProgress_le_100 _
          · simp only [if_neg ht]
            exact hwfe.2.2.1
        · intro hcond
          by_cases ht : 0 < e.2.totalItems
          · simp only [if_pos ht]
          · exact absurd hcond.2 ht
      · rw [if_neg hem] at heq
        subst heq
        exact hwf e he
    · apply calculateOverall_mono_modify weights st m _ hw
      intro e he hem
      have hwfe := hwf e he
      have hstat := hncomp e he hem
      by_cases ht : 0 < e.2.totalItems
      · have hold := hwfe.2.2.2 ⟨hstat, ht⟩
        rw [hold]
        simp only [if_pos ht]
        apply capProgress_mono
        have hT : (0:ℚ) < (e.2.totalItems : ℚ) := by exact_mod_cast ht
        apply mul_le_mul_of_nonneg_right _ (by norm_num : (0:ℚ) ≤ 100)
        apply (div_le_div_right hT).mpr
        exact_mod_cast (by omega :
          e.2.processedItems ≤ e.2.processedItems + c)
      · simp only [if_neg ht]
        exact le_refl _
  | incrementModuleOutput m c =>
    simp only [applyOp]
    constructor
    · intro e' he'
      obtain ⟨e, he, heq⟩ := List.mem_map.mp he'
      by_cases hem : (e.1 == m) = true
      · rw [if_pos hem] at heq
        subst heq
        exact hwf e he
      · rw [if_neg hem] at heq
        subst heq
        exact hwf e he
    · apply calculateOverall_mono_modify weights st m _ hw
      intro e he hem
      exact le_refl _
  | completeModule m =>
    simp only [applyOp]
    constructor
    · intro e' he'
      obtain ⟨e, he, heq⟩ := List.mem_map.mp he'
      by_cases hem : (e.1 == m) = true
      · rw [if_pos hem] at heq
        subst heq
        have hwfe := hwf e he
        exact ⟨hwfe.1, by norm_num, by norm_num,
          fun hcond => absurd rfl hcond.1⟩
      · rw [if_neg hem] at heq
        subst heq
        exact hwf e he
    · apply calculateOverall_mono_modify weights st m _ hw
      intro e he hem
      exact (hwf e he).2.2.1

theorem overall_ops_mono (weights : List (Str × ℚ))
    (hw : ∀ m : Str, 0 ≤ weightOf weights m) :
    ∀ (ops : List TrackerOp) (st : TrackerState),
      wfState st → overallSafeOps st ops →
      wfState (ops.foldl applyOp st) ∧
        calculateOverallProgress weights st ≤
          calculateOverallProgress weights (ops.foldl applyOp st) := by
  intro ops
  induction ops with
  | nil => intro st hwf _; exact ⟨hwf, le_refl _⟩
  | cons op ops ih =>
    intro st hwf hsafe
    rw [List.foldl_cons]
    have hstep := overall_safe_step weights hw st op hwf hsafe.1
    have hrest := ih (applyOp st op) hstep.1 hsafe.2
    exact ⟨hrest.1, le_trans hstep.2 hrest.2⟩

theorem defaultWeights_nonneg :
    ∀ m : Str, 0 ≤ weightOf defaultModuleWeights m := by
  intro m
  unfold weightOf
  cases hf : defaultModuleWeights.find? (fun e => e.1 == m) with
  | none => norm_num
  | some e =>
    have hmem := List.mem_of_find?_eq_some hf
    fin_cases hmem <;> norm_num

/-- C9 (amended): a module's processed count is non-decreasing across
any operation sequence that never re-starts that module and uses
non-negative counts for its processed increments (a repeated
`StartModule` resets it to zero). The overall progress percentage is
not non-decreasing in general — it can drop on a total update, on a
module (re)start, or on a processed increment after completion — but it
is non-decreasing across any sequence of output increments,
completions, and non-negative processed increments on not-yet-completed
modules, from any well-formed state (non-negative counters, progress in
[0,100], running modules' progress equal to their clamped ratio), for
any weight table with non-negative weights; the default weight table is
such a table, and the initial empty state is well-formed. -/
theorem c9_progress_amended (weights : List (Str × ℚ))
    (hw : ∀ m : Str, 0 ≤ weightOf weights m) :
    (∀ (n : Str) (ops : List TrackerOp) (st : TrackerState),
        (∀ op ∈ ops, processedBenign n op) →
        processedOf st n ≤ processedOf (ops.foldl applyOp st) n)
    ∧ (∀ (ops : List TrackerOp) (st : TrackerState),
        wfState st → overallSafeOps st ops →
        calculateOverallProgress weights st ≤
          calculateOverallProgress weights (ops.foldl applyOp st))
    ∧ wfState [] := by
  exact ⟨fun n ops st h => processedOf_ops_mono n ops st h,
    fun ops st hwf hs => (overall_ops_mono weights hw ops st hwf hs).2,
    fun e he => absurd he (List.not_mem_nil e)⟩

/-- Witness for the amended C9 theorem: with the default weights, an
output increment applied to the empty state does not decrease module
"A"'s processed counter, nor the overall progress. -/
theorem c9_progress_witness :
    processedOf ([] : TrackerState) (strMk "A") ≤
      processedOf
        ([TrackerOp.incrementModuleOutput (strMk "A") 1].foldl applyOp [])
        (strMk "A")
    ∧ calculateOverallProgress defaultModuleWeights ([] : TrackerState) ≤
      calculateOverallProgress defaultModuleWeights
        ([TrackerOp.incrementModuleOutput (strMk "A") 1].foldl applyOp []) :=
  ⟨(c9_progress_amended defaultModuleWeights defaultWeights_nonneg).1
      (strMk "A") [TrackerOp.incrementModuleOutput (strMk "A") 1] []
      (by intro op hop; fin_cases hop; exact trivial),
    (c9_progress_amended defaultModuleWeights defaultWeights_nonneg).2.1
      [TrackerOp.incrementModuleOutput (strMk "A") 1] []
      (fun e he => absurd he (List.not_mem_nil e))
      ⟨trivial, trivial⟩⟩

/-! ## C2: CIDR target expansion
(src/backend/service/pipeline/helpers.go, `expandCIDR` and
`incrementIP`). -/

/-- One dotted-quad octet as parsed by Go's IPv4 address parser: one to
three decimal digits, no leading zero, value at most 255; returns the
value and the unconsumed rest. -/
def parseOctet (s : Str) : Option (Nat × Str) :=
  if s.takeWhile isDigitCh = [] then none
  else if 3 < (s.takeWhile isDigitCh).length then none
  else if (s.takeWhile isDigitCh).head? = some '0' ∧
      (s.takeWhile isDigitCh).length ≠ 1 then none
  else if 255 < decValue (s.takeWhile isDigitCh) then none
  else some (decValue (s.takeWhile isDigitCh), s.dropWhile isDigitCh)

/-- Consume one expected character. -/
def expectChar (c : Char) : Str → Option Str
  | [] => none
  | x :: s => if x = c then some s else none

/-- The dotted-quad IPv4 address parser: four octets separated by dots,
returning the 32-bit value and the unconsumed rest. -/
def parseIPv4 (s : Str) : Option (Nat × Str) := do
  let (a, s1) ← parseOctet s
  let s2 ← expectChar '.' s1
  let (b, s3) ← parseOctet s2
  let s4 ← expectChar '.' s3
  let (c, s5) ← parseOctet s4
  let s6 ← expectChar '.' s5
  let (d, s7) ← parseOctet s6
  pure (((a * 256 + b) * 256 + c) * 256 + d, s7)

/-- The mask-length parser of `ParseCIDR` for an IPv4 address: a
non-empty all-digit suffix with value at most 32. -/
def parseMaskBits (s : Str) : Option Nat :=
  if s ≠ [] ∧ allDigits s = true ∧ decValue s ≤ 32 then some (decValue s)
  else none

/-- Split a string at the first occurrence of `c`. -/
def splitAtFirst (c : Char) : Str → Option (Str × Str)
  | [] => none
  | x :: s =>
    if x = c then some ([], s)
    else (splitAtFirst c s).map (fun p => (x :: p.1, p.2))

/-- Model of `net.ParseCIDR` restricted to IPv4 dotted-quad CIDRs (the
pipeline's CIDR targets; IPv6 inputs are outside the model): split at
the first '/', parse the dotted quad and the mask length, and return
the masked network address together with the mask size, as Go returns
`&IPNet{IP: ip.Mask(mask), ...}`. -/
def parseCIDRv4 (s : Str) : Option (Nat × Nat) := do
  let (addr, maskStr) ← splitAtFirst '/' s
  let (ip, rest) ← parseIPv4 addr
  if rest = [] then
    let ones ← parseMaskBits maskStr
    pure ((ip / 2 ^ (32 - ones)) * 2 ^ (32 - ones), ones)
  else none

/-- `net.IP.String` for a 4-byte address: the four octet values in
decimal without leading zeros, joined by dots. -/
def ipString (v : Nat) : Str :=
  uitoa (v / 2 ^ 24 % 256) ++ '.' :: (uitoa (v / 2 ^ 16 % 256) ++
    '.' :: (uitoa (v / 2 ^ 8 % 256) ++ '.' :: uitoa (v % 256)))

/-- `incrementIP` on a 4-byte address: increment with wrap-around. -/
def incrementIPNum (v : Nat) : Nat := (v + 1) % 2 ^ 32

/-- The expansion loop of `expandCIDR`: `numIPs` iterations of
`result = append(result, ip.String()); incrementIP(ip)`. -/
def expandLoop : Nat → Nat → List Str
  | _, 0 => []
  | v, k + 1 => ipString v :: expandLoop (incrementIPNum v) k

/-- The `maxCIDRExpand` constant of `expandCIDR`. -/
def maxCIDRExpand : Nat := 65536

/-- `expandCIDR` (src/backend/service/pipeline/helpers.go): an
unparsable CIDR is returned unchanged as a single element; a CIDR with
more than 65536 addresses is returned unchanged; otherwise the network
is expanded address by address. -/
def expandCIDR (cidr : Str) : List Str :=
  match parseCIDRv4 cidr with
  | none => [cidr]
  | some (network, ones) =>
    if maxCIDRExpand < 2 ^ (32 - ones) then [cidr]
    else expandLoop network (2 ^ (32 - ones))

/-- The canonical rendering `"a.b.c.d/n"` of an IPv4 CIDR. -/
def renderCIDR (a b c d n : Nat) : Str :=
  uitoa a ++ '.' :: (uitoa b ++ '.' :: (uitoa c ++ '.' :: (uitoa d ++
    '/' :: uitoa n)))

set_option maxRecDepth 4096 in
theorem uitoa_octet_facts : ∀ a : Nat, a < 256 →
    allDigits (uitoa a) = true ∧ (uitoa a).length ≤ 3 ∧
      ¬((uitoa a).head? = some '0' ∧ (uitoa a).length ≠ 1) ∧
      decValue (uitoa a) = a ∧ uitoa a ≠ [] := by decide

theorem uitoa_mask_facts : ∀ n : Nat, n < 33 →
    allDigits (uitoa n) = true ∧ decValue (uitoa n) = n ∧
      uitoa n ≠ [] := by decide

/-- A string whose head (if any) fails `p`. -/
def headFails (p : Char → Bool) (s : Str) : Prop :=
  ∀ c : Char, s.head? = some c → p c = false

theorem takeWhile_append_all {p : Char → Bool} (xs ys : Str)
    (hxs : xs.all p = true) (hys : headFails p ys) :
    (xs ++ ys).takeWhile p = xs ∧ (xs ++ ys).dropWhile p = ys := by
  induction xs with
  | nil =>
    rw [List.nil_append]
    cases ys with
    | nil => exact ⟨rfl, rfl⟩
    | cons y ys =>
      have hy : p y = false := hys y rfl
      rw [List.takeWhile_cons, List.dropWhile_cons, hy]
      exact ⟨rfl, rfl⟩
  | cons x xs ih =>
    rw [List.all_cons, Bool.and_eq_true] at hxs
    have := ih hxs.2
    rw [List.cons_append, List.takeWhile_cons, List.dropWhile_cons, hxs.1]
    exact ⟨by simp [this.1], by simp [this.2]⟩

theorem parseOctet_round (a : Nat) (ha : a < 256) (rest : Str)
    (hrest : headFails isDigitCh rest) :
    parseOctet (uitoa a ++ rest) = some (a, rest) := by
  obtain ⟨hall, hlen, hlead, hval, hne⟩ := uitoa_octet_facts a ha
  obtain ⟨htake, hdrop⟩ := takeWhile_append_all (uitoa a) rest hall hrest
  unfold parseOctet
  rw [htake, hdrop, if_neg hne, if_neg (by omega), if_neg hlead,
    if_neg (by omega), hval]

theorem parseMaskBits_round (n : Nat) (hn : n ≤ 32) :
    parseMaskBits (uitoa n) = some n := by
  obtain ⟨hall, hval, hne⟩ := uitoa_mask_facts n (by omega)
  unfold parseMaskBits
  rw [if_pos ⟨hne, hall, by omega⟩, hval]

theorem headFails_cons {p : Char → Bool} {x : Char} (hx : p x = false)
    (xs : Str) : headFails p (x :: xs) := by
  intro c hc
  simp only [List.head?_cons, Option.some.injEq] at hc
  rw [← hc]
  exact hx

theorem parseIPv4_round (v : Nat) (hv : v < 2 ^ 32) (rest : Str)
    (hrest : headFails isDigitCh rest) :
    parseIPv4 (ipString v ++ rest) = some (v, rest) := by
  have hdotf : isDigitCh '.' = false := rfl
  have ha : v / 2 ^ 24 % 256 < 256 := Nat.mod_lt _ (by norm_num)
  have hb : v / 2 ^ 16 % 256 < 256 := Nat.mod_lt _ (by norm_num)
  have hc : v / 2 ^ 8 % 256 < 256 := Nat.mod_lt _ (by norm_num)
  have hd : v % 256 < 256 := Nat.mod_lt _ (by norm_num)
  have hexp : ∀ s : Str, expectChar '.' ('.' :: s) = some s := by
    intro s; simp [expectChar]
  have hshape : ipString v ++ rest =
      uitoa (v / 2 ^ 24 % 256) ++ ('.' :: (uitoa (v / 2 ^ 16 % 256) ++
        ('.' :: (uitoa (v / 2 ^ 8 % 256) ++
          ('.' :: (uitoa (v % 256) ++ rest)))))) := by
    simp [ipString, List.append_assoc]
  have h1 := parseOctet_round _ ha
    ('.' :: (uitoa (v / 2 ^ 16 % 256) ++ ('.' :: (uitoa (v / 2 ^ 8 % 256) ++
      ('.' :: (uitoa (v % 256) ++ rest)))))) (headFails_cons hdotf _)
  have h2 := parseOctet_round _ hb
    ('.' :: (uitoa (v / 2 ^ 8 % 256) ++ ('.' :: (uitoa (v % 256) ++ rest))))
    (headFails_cons hdotf _)
  have h3 := parseOctet_round _ hc ('.' :: (uitoa (v % 256) ++ rest))
    (headFails_cons hdotf _)
  have h4 := parseOctet_round _ hd rest hrest
  rw [hshape]
  unfold parseIPv4
  simp only [h1, h2, h3, h4, hexp, Option.bind_eq_bind, Option.some_bind]
  have harith : (((v / 2 ^ 24 % 256) * 256 + v / 2 ^ 16 % 256) * 256 +
      v / 2 ^ 8 % 256) * 256 + v % 256 = v := by
    have hv' : v < 4294967296 := by
      have h32 : (2 : Nat) ^ 32 = 4294967296 := by norm_num
      rw [h32] at hv
      exact hv
    rw [show (2 : Nat) ^ 24 = 16777216 from by norm_num,
      show (2 : Nat) ^ 16 = 65536 from by norm_num,
      show (2 : Nat) ^ 8 = 256 from by norm_num]
    omega
  rw [harith]
  rfl

theorem not_slash_mem_uitoa (x : Nat) (hx : x < 256) : '/' ∉ uitoa x := by
  intro hm
  have hall := (uitoa_octet_facts x hx).1
  rw [allDigits] at hall
  have := List.all_eq_true.mp hall '/' hm
  exact absurd this (by decide)

theorem slash_not_mem_ipString (v : Nat) (hv : v < 2 ^ 32) :
    '/' ∉ ipString v := by
  intro hmem
  have ha : v / 2 ^ 24 % 256 < 256 := Nat.mod_lt _ (by norm_num)
  have hb : v / 2 ^ 16 % 256 < 256 := Nat.mod_lt _ (by norm_num)
  have hc : v / 2 ^ 8 % 256 < 256 := Nat.mod_lt _ (by norm_num)
  have hd : v % 256 < 256 := Nat.mod_lt _ (by norm_num)
  unfold ipString at hmem
  simp only [List.mem_append, List.mem_cons] at hmem
  rcases hmem with h | (h | (h | (h | (h | (h | h)))))
  · exact not_slash_mem_uitoa _ ha h
  · exact absurd h (by decide)
  · exact not_slash_mem_uitoa _ hb h
  · exact absurd h (by decide)
  · exact not_slash_mem_uitoa _ hc h
  · exact absurd h (by decide)
  · exact not_slash_mem_uitoa _ hd h

theorem splitAtFirst_of_not_mem (c : Char) (xs ys : Str) (h : c ∉ xs) :
    splitAtFirst c (xs ++ c :: ys) = some (xs, ys) := by
  induction xs with
  | nil => simp [splitAtFirst]
  | cons x xs ih =>
    rw [List.cons_append]
    unfold splitAtFirst
    rw [if_neg (fun hh : x = c => h (hh ▸ List.mem_cons_self x xs))]
    rw [ih (fun hm => h (List.mem_cons_of_mem x hm))]
    rfl

theorem quad_lt (a b c d : Nat) (ha : a ≤ 255) (hb : b ≤ 255)
    (hc : c ≤ 255) (hd : d ≤ 255) :
    ((a * 256 + b) * 256 + c) * 256 + d < 2 ^ 32 := by
  rw [show (2 : Nat) ^ 32 = 4294967296 from by norm_num]
  omega

theorem quad_octets (a b c d : Nat) (ha : a ≤ 255) (hb : b ≤ 255)
    (hc : c ≤ 255) (hd : d ≤ 255) :
    (((a * 256 + b) * 256 + c) * 256 + d) / 2 ^ 24 % 256 = a ∧
      (((a * 256 + b) * 256 + c) * 256 + d) / 2 ^ 16 % 256 = b ∧
      (((a * 256 + b) * 256 + c) * 256 + d) / 2 ^ 8 % 256 = c ∧
      (((a * 256 + b) * 256 + c) * 256 + d) % 256 = d := by
  rw [show (2 : Nat) ^ 24 = 16777216 from by norm_num,
    show (2 : Nat) ^ 16 = 65536 from by norm_num,
    show (2 : Nat) ^ 8 = 256 from by norm_num]
  omega

theorem renderCIDR_eq (a b c d n : Nat) (ha : a ≤ 255) (hb : b ≤ 255)
    (hc : c ≤ 255) (hd : d ≤ 255) :
    renderCIDR a b c d n =
      ipString (((a * 256 + b) * 256 + c) * 256 + d) ++ '/' :: uitoa n := by
  obtain ⟨h1, h2, h3, h4⟩ := quad_octets a b c d ha hb hc hd
  unfold renderCIDR ipString
  rw [h1, h2, h3, h4]
  simp [List.append_assoc]

theorem parseCIDRv4_render (a b c d n : Nat) (ha : a ≤ 255) (hb : b ≤ 255)
    (hc : c ≤ 255) (hd : d ≤ 255) (hn : n ≤ 32) :
    parseCIDRv4 (renderCIDR a b c d n) =
      some ((((a * 256 + b) * 256 + c) * 256 + d) / 2 ^ (32 - n) *
        2 ^ (32 - n), n) := by
  have hv := quad_lt a b c d ha hb hc hd
  rw [renderCIDR_eq a b c d n ha hb hc hd]
  unfold parseCIDRv4
  rw [splitAtFirst_of_not_mem '/' _ _
    (slash_not_mem_ipString _ hv)]
  have hip := parseIPv4_round _ hv []
    (by intro x hx; simp at hx)
  rw [List.append_nil] at hip
  simp only [Option.bind_eq_bind, Option.some_bind, hip, if_true,
    parseMaskBits_round n hn, Option.some_bind']
  rfl

theorem ipString_inj {v w : Nat} (hv : v < 2 ^ 32) (hw : w < 2 ^ 32)
    (h : ipString v = ipString w) : v = w := by
  have h1 := parseIPv4_round v hv [] (by intro x hx; simp at hx)
  have h2 := parseIPv4_round w hw [] (by intro x hx; simp at hx)
  rw [List.append_nil] at h1 h2
  rw [h, h2] at h1
  exact (Prod.mk.injEq _ _ _ _).mp (Option.some.inj h1) |>.1.symm

theorem expandLoop_eq : ∀ (k v : Nat), v + k ≤ 2 ^ 32 →
    expandLoop v k = (List.range k).map (fun i => ipString (v + i)) := by
  intro k
  induction k with
  | zero => intro v _; simp [expandLoop]
  | succ k ih =>
    intro v hv
    by_cases hk : k = 0
    · subst hk
      simp [expandLoop, List.range_succ]
    · have hlt : v + 1 < 2 ^ 32 := by omega
      have hinc : incrementIPNum v = v + 1 := by
        unfold incrementIPNum
        exact Nat.mod_eq_of_lt hlt
      simp only [expandLoop, hinc]
      rw [ih (v + 1) (by omega), List.range_succ_eq_map]
      simp only [List.map_cons, List.map_map, Nat.add_zero]
      congr 1
      apply List.map_eq_map_iff.mpr
      intro i hi
      simp only [Function.comp]
      congr 1
      omega

/-- When the CIDR string parses, `expandCIDR` reduces to the capped
expansion loop over the parsed network. -/
theorem expandCIDR_some (s : Str) (net ones : Nat)
    (h : parseCIDRv4 s = some (net, ones)) :
    expandCIDR s =
      if maxCIDRExpand < 2 ^ (32 - ones) then [s]
      else expandLoop net (2 ^ (32 - ones)) := by
  unfold expandCIDR
  rw [h]

/-- C2: for every valid IPv4 CIDR `a.b.c.d/n` with `2^(32−n) ≤ 65536`
(that is, `n ≥ 16`), expansion yields exactly the `2^(32−n)` host
strings of the network in increasing address order (hence pairwise
distinct); for `n < 16` the CIDR string is forwarded unchanged; and a
string that does not parse as a CIDR is returned unchanged as a single
element. -/
theorem c2_expand_cidr (a b c d n : Nat) (ha : a ≤ 255) (hb : b ≤ 255)
    (hc : c ≤ 255) (hd : d ≤ 255) (hn16 : 16 ≤ n) (hn : n ≤ 32) :
    expandCIDR (renderCIDR a b c d n) =
      (List.range (2 ^ (32 - n))).map (fun i =>
        ipString ((((a * 256 + b) * 256 + c) * 256 + d) / 2 ^ (32 - n) *
          2 ^ (32 - n) + i))
    ∧ (expandCIDR (renderCIDR a b c d n)).length = 2 ^ (32 - n)
    ∧ (expandCIDR (renderCIDR a b c d n)).Nodup
    ∧ (∀ s : Str, parseCIDRv4 s = none → expandCIDR s = [s])
    ∧ (∀ a2 b2 c2 d2 n2 : Nat, a2 ≤ 255 → b2 ≤ 255 → c2 ≤ 255 →
        d2 ≤ 255 → n2 < 16 →
        expandCIDR (renderCIDR a2 b2 c2 d2 n2) =
          [renderCIDR a2 b2 c2 d2 n2]) := by
  have hv := quad_lt a b c d ha hb hc hd
  have hpowpos : 0 < 2 ^ (32 - n) := Nat.pow_pos (by norm_num)
  have hsplit : 2 ^ (32 - (32 - n)) * 2 ^ (32 - n) = 2 ^ 32 := by
    rw [← pow_add]
    congr 1
    omega
  have hdiv : (((a * 256 + b) * 256 + c) * 256 + d) / 2 ^ (32 - n) <
      2 ^ (32 - (32 - n)) := by
    rw [Nat.div_lt_iff_lt_mul hpowpos, hsplit]
    exact hv
  have hnetb : (((a * 256 + b) * 256 + c) * 256 + d) / 2 ^ (32 - n) *
      2 ^ (32 - n) + 2 ^ (32 - n) ≤ 2 ^ 32 := by
    have h1 : (((a * 256 + b) * 256 + c) * 256 + d) / 2 ^ (32 - n) + 1 ≤
        2 ^ (32 - (32 - n)) := hdiv
    calc (((a * 256 + b) * 256 + c) * 256 + d) / 2 ^ (32 - n) *
          2 ^ (32 - n) + 2 ^ (32 - n)
        = ((((a * 256 + b) * 256 + c) * 256 + d) / 2 ^ (32 - n) + 1) *
            2 ^ (32 - n) := by ring
      _ ≤ 2 ^ (32 - (32 - n)) * 2 ^ (32 - n) :=
            Nat.mul_le_mul_right _ h1
      _ = 2 ^ 32 := hsplit
  have hcap : ¬(maxCIDRExpand < 2 ^ (32 - n)) := by
    have hle : 2 ^ (32 - n) ≤ 2 ^ 16 :=
      Nat.pow_le_pow_right (by norm_num) (by omega)
    unfold maxCIDRExpand
    rw [show (65536 : Nat) = 2 ^ 16 from by norm_num]
    omega
  have heq : expandCIDR (renderCIDR a b c d n) =
      (List.range (2 ^ (32 - n))).map (fun i =>
        ipString ((((a * 256 + b) * 256 + c) * 256 + d) / 2 ^ (32 - n) *
          2 ^ (32 - n) + i)) := by
    rw [expandCIDR_some _ _ _ (parseCIDRv4_render a b c d n ha hb hc hd hn)]
    rw [if_neg hcap]
    exact expandLoop_eq _ _ hnetb
  refine ⟨heq, ?_, ?_, ?_, ?_⟩
  · rw [heq]
    simp
  · rw [heq]
    refine List.Nodup.map_on ?_ (List.nodup_range _)
    intro x hx y hy hxy
    rw [List.mem_range] at hx hy
    have hbx : (((a * 256 + b) * 256 + c) * 256 + d) / 2 ^ (32 - n) *
        2 ^ (32 - n) + x < 2 ^ 32 := by omega
    have hby : (((a * 256 + b) * 256 + c) * 256 + d) / 2 ^ (32 - n) *
        2 ^ (32 - n) + y < 2 ^ 32 := by omega
    have := ipString_inj hbx hby hxy
    omega
  · intro s hs
    unfold expandCIDR
    rw [hs]
  · intro a2 b2 c2 d2 n2 ha2 hb2 hc2 hd2 hn2
    rw [expandCIDR_some _ _ _
      (parseCIDRv4_render a2 b2 c2 d2 n2 ha2 hb2 hc2 hd2 (by omega))]
    rw [if_pos ?hbig]
    case hbig =>
      have hlt : (2 : Nat) ^ 16 < 2 ^ (32 - n2) :=
        Nat.pow_lt_pow_right (by norm_num) (by omega)
      unfold maxCIDRExpand
      rw [show (65536 : Nat) = 2 ^ 16 from by norm_num]
      exact hlt

/-- Witness for the C2 theorem at the CIDR `10.1.2.4/30`: four
addresses, in order and duplicate-free. -/
theorem c2_expand_cidr_witness :
    (expandCIDR (renderCIDR 10 1 2 4 30)).length = 2 ^ (32 - 30) ∧
      (expandCIDR (renderCIDR 10 1 2 4 30)).Nodup :=
  ⟨(c2_expand_cidr 10 1 2 4 30 (by decide) (by decide) (by decide)
      (by decide) (by decide) (by decide)).2.1,
    (c2_expand_cidr 10 1 2 4 30 (by decide) (by decide) (by decide)
      (by decide) (by decide) (by decide)).2.2.1⟩

end MoonGazing
